import Mathlib

/-!
The `ranges` pre-pass of butler, its null reader and the network-error test

A shallow embedding of

* `doRanges` (`ranges.go`): the pre-pass over the per-file operation streams of a
  patch, which accumulates the unchanged / moved / fresh byte counters and the
  per-target-file sets `requiredOldBlocks`, followed by the loop that assigns a
  block address to every required block;
* `NullReader.Read` and `FakePool.GetReadSeeker` (`ranges.go`);
* `IsNetworkError` (`vendor/github.com/itchio/httpkit/neterr/neterr.go`).

Conventions of the embedding.

* Go's `int64` and `int` values are integers (`Int`), and every `+`, `-` and `*` on
  them is followed by `wrap64`, the reduction to the 64-bit two's complement range
  (`int` has 64 bits).
* Go's `%` truncates towards zero: it is `Int.tmod`. A `%` with a zero divisor
  aborts the run; the `BLOCK_RANGE` case tests for it before it takes the size of the
  range, and the address loop reaches its `%` only inside a loop that does not run
  when the fetch block size is zero.
* `float64(x)` for an `int64` `x` is `toFloat64 x`, the nearest number with a
  53-bit significand, ties to even; it is an integer. The quotient of two such
  numbers is rounded in the same way (`quot64`); `math.Floor` and `math.Ceil` are
  exact, and the conversion back to `int64` of a number outside the `int64` range, of
  an infinity or of a NaN is `minInt64` (as on amd64; Go leaves it to the
  implementation).
* A `map[int64]bool` that only ever receives `true` is the finite set of its keys.
* The decompressed patch wire is the list of messages still to be read;
  `ReadMessage` fails on an exhausted wire and on a message of the other kind.
* A function that can fail returns, with the error, the values that the counters
  and `requiredOldBlocks` hold at the moment of the failure.
* Log output (`comm.Statf`, `fmt.Printf`) is not part of the model.
-/

namespace Butler

/-! ## Containers and messages -/

/-- A file of a `tlc.Container`: the fields `doRanges` reads. -/
structure File where
  Path : String
  Size : Int
deriving DecidableEq

/-- A `tlc.Container`: its ordered files. -/
structure Container where
  Files : List File
deriving DecidableEq

/-- The tag of a `pwr.SyncOp`; `OTHER` stands for every value that none of the
three `case`s of the `switch` in `doRanges` matches. -/
inductive SyncOpType where
  | BLOCK_RANGE
  | DATA
  | HEY_YOU_DID_IT
  | OTHER
deriving DecidableEq

/-- A `pwr.SyncOp` message (`OpType` is the field `Type`). -/
structure SyncOp where
  OpType : SyncOpType
  FileIndex : Int
  BlockIndex : Int
  BlockSpan : Int
  Data : List UInt8
deriving DecidableEq

/-- A `pwr.SyncHeader` message. -/
structure SyncHeader where
  FileIndex : Int
deriving DecidableEq

/-- One framed message of the patch wire, after the two containers. -/
inductive Message where
  | header (sh : SyncHeader)
  | op (rop : SyncOp)
deriving DecidableEq

/-- The ways in which the pre-pass stops early: `ReadMessage` returned an error,
`pwr.ErrMalformedPatch` was returned, a slice index was out of range, or the divisor
of a `%` was zero (the last two are run-time aborts, not returned errors). -/
inductive Failure where
  | readError
  | malformedPatch
  | indexOutOfRange
  | divideByZero
deriving DecidableEq

/-- The expression `xs[i]` for an `int64` index: `none` when Go aborts. -/
def index? {α : Type} (xs : List α) (i : Int) : Option α :=
  if 0 ≤ i then xs[i.toNat]? else none

/-- The call `patchWire.ReadMessage(sh)`. -/
def readSyncHeader : List Message → Option (SyncHeader × List Message)
  | Message.header sh :: rest => some (sh, rest)
  | _ => none

/-! ## Machine arithmetic -/

/-- The 64-bit two's complement value of `x`: what an `int64` operation with the
exact result `x` leaves. -/
def wrap64 (x : Int) : Int :=
  (x + 9223372036854775808) % 18446744073709551616 - 9223372036854775808

/-- The least `int64`. -/
def minInt64 : Int := -9223372036854775808

/-- The number of low bits that `Q ≥ 2^53` loses when it is cut to 53 bits:
the `k` with `2^52 ≤ Q / 2^k < 2^53`, for `Q < 2^(53 + fuel)`. -/
def dropBits : Nat → Nat → Nat
  | 0, _ => 0
  | fuel + 1, Q => if Q < 9007199254740992 then 0 else dropBits fuel (Q / 2) + 1

/-- Rounding to a 53-bit significand, to nearest, ties to even: `Q` is the integer
part of the number and `sticky` tells whether a fraction follows (only for
`Q ≥ 2^53`). -/
def round53 (Q : Nat) (sticky : Bool) : Nat :=
  if Q < 9007199254740992 then Q
  else
    let k := dropBits 192 Q
    let q := Q / 2 ^ k
    let rem := Q % 2 ^ k
    let half := 2 ^ (k - 1)
    if rem > half ∨ (rem = half ∧ (sticky = true ∨ q % 2 = 1)) then (q + 1) * 2 ^ k
    else q * 2 ^ k

/-- The conversion `float64(x)` of an `int64`. -/
def toFloat64 (x : Int) : Int :=
  if 0 ≤ x then (round53 x.toNat false : Int) else -(round53 (-x).toNat false : Int)

/-- The absolute value of the `float64` quotient `fa / fb` of two non-zero
`float64` integers, times `2^128`. -/
def quot64 (fa fb : Int) : Nat :=
  round53 (fa.natAbs * 2 ^ 128 / fb.natAbs) (decide (fa.natAbs * 2 ^ 128 % fb.natAbs ≠ 0))

/-- The conversion `int64(v)` of an integral `float64`. -/
def toInt64 (v : Int) : Int :=
  if minInt64 ≤ v ∧ v < 9223372036854775808 then v else minInt64

/-- The value `int64(math.Floor(float64(a) / float64(b)))`. -/
def floorDiv (a b : Int) : Int :=
  let fa := toFloat64 a
  let fb := toFloat64 b
  if fb = 0 then minInt64
  else if fa = 0 then 0
  else if (fa < 0) = (fb < 0) then toInt64 ((quot64 fa fb / 2 ^ 128 : Nat) : Int)
  else toInt64 (-(((quot64 fa fb + (2 ^ 128 - 1)) / 2 ^ 128 : Nat) : Int))

/-- The value `int64(math.Ceil(float64(a) / float64(b)))`. -/
def ceilDiv (a b : Int) : Int :=
  let fa := toFloat64 a
  let fb := toFloat64 b
  if fb = 0 then minInt64
  else if fa = 0 then 0
  else if (fa < 0) = (fb < 0) then
    toInt64 (((quot64 fa fb + (2 ^ 128 - 1)) / 2 ^ 128 : Nat) : Int)
  else toInt64 (-((quot64 fa fb / 2 ^ 128 : Nat) : Int))

/-- The exact floor of `a / b`, for `b > 0`. -/
def floorExact (a b : Int) : Int := Int.fdiv a b

/-- The exact ceiling of `a / b`, for `b > 0`. -/
def ceilExact (a b : Int) : Int := -(Int.fdiv (-a) b)

/-! ## Arithmetic of the two block sizes -/

/-- The byte length `size` of a `BLOCK_RANGE` op (`ranges.go`, lines 192-203), for a
block size other than zero; `doBlockRange` stops before it where the `%` has a zero
divisor. -/
def rangeSize (blockSize : Int) (targetFile : File) (rop : SyncOp) : Int :=
  let size := wrap64 (blockSize * rop.BlockSpan)
  let alignedSize := wrap64 (blockSize * wrap64 (rop.BlockIndex + rop.BlockSpan))
  if alignedSize > targetFile.Size then
    wrap64 (wrap64 (size - blockSize) + Int.tmod targetFile.Size blockSize)
  else
    size

/-- The loop `for i := bigBlockStart; i < bigBlockEnd; i++ { m[i] = true }`. -/
def markBlocks (blockMap : Finset Int) (bigBlockStart bigBlockEnd : Int) : Finset Int :=
  (List.range (bigBlockEnd - bigBlockStart).toNat).foldl
    (fun (m : Finset Int) (k : Nat) => insert (bigBlockStart + (k : Int)) m) blockMap

/-! ## The pre-pass -/

/-- The counters and sets that `doRanges` declares before its loop over the
source files. -/
structure Stats where
  numDatas : Int
  numBlockRanges : Int
  unchangedBytes : Int
  movedBytes : Int
  freshBytes : Int
  requiredOldBlocks : List (Finset Int)
deriving DecidableEq

/-- The locals of the closure that reads one file's operations. -/
structure FileScan where
  sourceOffset : Int
  numMoved : Int
  numUnchanged : Int
  numFresh : Int
deriving DecidableEq

/-- The state before the first source file: zero counters and one empty map per
target file. -/
def initStats (targetContainer : Container) : Stats :=
  { numDatas := 0, numBlockRanges := 0, unchangedBytes := 0, movedBytes := 0,
    freshBytes := 0,
    requiredOldBlocks := List.replicate targetContainer.Files.length ∅ }

/-- The locals at the start of a file's operation stream. -/
def initScan : FileScan :=
  { sourceOffset := 0, numMoved := 0, numUnchanged := 0, numFresh := 0 }

/-- A result, or a failure together with the state at the failure. -/
abbrev Outcome (α : Type) := Except (Failure × Stats) α

/-- The `case pwr.SyncOp_BLOCK_RANGE` of the `switch` (`ranges.go`, lines 191-222). -/
def doBlockRange (targetContainer : Container) (blockSize bigBlockSize : Int)
    (sourceFile : File) (rop : SyncOp) (st : Stats) (loc : FileScan) :
    Outcome (Stats × FileScan) :=
  let targetOffset := wrap64 (blockSize * rop.BlockIndex)
  match index? targetContainer.Files rop.FileIndex with
  | none => Except.error (Failure.indexOutOfRange, st)
  | some targetFile =>
    if blockSize = 0
        ∧ wrap64 (blockSize * wrap64 (rop.BlockIndex + rop.BlockSpan)) > targetFile.Size then
      Except.error (Failure.divideByZero, st)
    else
    let size := rangeSize blockSize targetFile rop
    if targetFile.Path = sourceFile.Path ∧ targetOffset = loc.sourceOffset then
      Except.ok
        ({ st with unchangedBytes := wrap64 (st.unchangedBytes + size),
                   numBlockRanges := wrap64 (st.numBlockRanges + 1) },
         { loc with numUnchanged := wrap64 (loc.numUnchanged + 1),
                    sourceOffset := wrap64 (loc.sourceOffset + size) })
    else
      let st1 := { st with movedBytes := wrap64 (st.movedBytes + size) }
      let bigBlockStart := floorDiv (wrap64 (rop.BlockIndex * blockSize)) bigBlockSize
      let bigBlockEnd :=
        ceilDiv (wrap64 (wrap64 (rop.BlockIndex * blockSize) + size)) bigBlockSize
      if bigBlockStart < bigBlockEnd then
        match index? st.requiredOldBlocks rop.FileIndex with
        | none => Except.error (Failure.indexOutOfRange, st1)
        | some blockMap =>
          Except.ok
            ({ st1 with
                 requiredOldBlocks :=
                   st.requiredOldBlocks.set rop.FileIndex.toNat
                     (markBlocks blockMap bigBlockStart bigBlockEnd),
                 numBlockRanges := wrap64 (st.numBlockRanges + 1) },
             { loc with numMoved := wrap64 (loc.numMoved + 1),
                        sourceOffset := wrap64 (loc.sourceOffset + size) })
      else
        Except.ok
          ({ st1 with numBlockRanges := wrap64 (st.numBlockRanges + 1) },
           { loc with numMoved := wrap64 (loc.numMoved + 1),
                      sourceOffset := wrap64 (loc.sourceOffset + size) })

/-- The `case pwr.SyncOp_DATA` of the `switch`. -/
def doData (rop : SyncOp) (st : Stats) (loc : FileScan) : Stats × FileScan :=
  let size : Int := wrap64 (rop.Data.length : Int)
  ({ st with freshBytes := wrap64 (st.freshBytes + size),
             numDatas := wrap64 (st.numDatas + 1) },
   { loc with sourceOffset := wrap64 (loc.sourceOffset + size),
              numFresh := wrap64 (loc.numFresh + 1) })

/-- The closure of `doRanges` that reads the operations of one source file until
`HEY_YOU_DID_IT`; it returns the state and the rest of the wire. -/
def scanOps (targetContainer : Container) (blockSize bigBlockSize : Int)
    (sourceFile : File) : List Message → Stats → FileScan → Outcome (Stats × List Message)
  | [], st, _ => Except.error (Failure.readError, st)
  | Message.header _ :: _, st, _ => Except.error (Failure.readError, st)
  | Message.op rop :: rest, st, loc =>
    match rop.OpType with
    | SyncOpType.BLOCK_RANGE =>
      match doBlockRange targetContainer blockSize bigBlockSize sourceFile rop st loc with
      | Except.error e => Except.error e
      | Except.ok (st1, loc1) =>
        scanOps targetContainer blockSize bigBlockSize sourceFile rest st1 loc1
    | SyncOpType.DATA =>
      scanOps targetContainer blockSize bigBlockSize sourceFile rest
        (doData rop st loc).1 (doData rop st loc).2
    | SyncOpType.HEY_YOU_DID_IT => Except.ok (st, rest)
    | SyncOpType.OTHER =>
      scanOps targetContainer blockSize bigBlockSize sourceFile rest st loc

/-- The loop `for fileIndex, sourceFile := range sourceContainer.Files`, from
position `fileIndex` on. -/
def scanFiles (targetContainer : Container) (blockSize bigBlockSize : Int) :
    Nat → List File → Stats → List Message → Outcome (Stats × List Message)
  | _, [], st, wire => Except.ok (st, wire)
  | fileIndex, sourceFile :: files, st, wire =>
    match readSyncHeader wire with
    | none => Except.error (Failure.readError, st)
    | some (sh, wire1) =>
      if sh.FileIndex ≠ (fileIndex : Int) then
        Except.error (Failure.malformedPatch, st)
      else
        match scanOps targetContainer blockSize bigBlockSize sourceFile wire1 st initScan with
        | Except.error e => Except.error e
        | Except.ok (st1, wire2) =>
          scanFiles targetContainer blockSize bigBlockSize (fileIndex + 1) files st1 wire2

/-- The pre-pass of `doRanges` (`ranges.go`, lines 147-242), on the wire that
follows the two containers. -/
def prePass (targetContainer sourceContainer : Container) (blockSize bigBlockSize : Int)
    (wire : List Message) : Outcome (Stats × List Message) :=
  scanFiles targetContainer blockSize bigBlockSize 0 sourceContainer.Files
    (initStats targetContainer) wire

/-! ## The address-assignment loop -/

/-- Modelled from the spec: `netpool.BlockAddressMap`, whose declaration is not
among the sources; the spec describes it as a mapping keyed by
`(fileIndex, blockIndex)` whose values are block addresses. -/
abbrev BlockAddressMap := Int → Int → Option String

/-- Modelled from the spec: `BlockAddressMap.Set`, which records `address` under
the key `(fileIndex, blockIndex)`. -/
def BlockAddressMap.Set (m : BlockAddressMap) (fileIndex blockIndex : Int)
    (address : String) : BlockAddressMap :=
  fun i j => if i = fileIndex ∧ j = blockIndex then some address else m i j

/-- The totals and the map that the address-assignment loop builds. -/
structure BlockTotals where
  totalBlocks : Int
  partialBlocks : Int
  neededBlocks : Int
  neededBlockSize : Int
  blockAddresses : BlockAddressMap

/-- The totals before the loop: zeros and `make(netpool.BlockAddressMap)`. -/
def initTotals : BlockTotals :=
  { totalBlocks := 0, partialBlocks := 0, neededBlocks := 0, neededBlockSize := 0,
    blockAddresses := fun _ _ => none }

/-- The string `fmt.Sprintf("shake128-32/fakehash-%d-%d/%d", i, j, size)`. -/
def fakeAddress (i : Nat) (j size : Int) : String :=
  "shake128-32/fakehash-" ++ toString i ++ "-" ++ toString j ++ "/" ++ toString size

/-- The size that the loop gives to block `j` of file `f`. -/
def neededSize (f : File) (bigBlockSize j : Int) : Int :=
  if wrap64 (wrap64 (j + 1) * bigBlockSize) > f.Size then Int.tmod f.Size bigBlockSize
  else bigBlockSize

/-- The body of `for j := int64(0); j < fileNumBlocks; j++` (`ranges.go`,
lines 262-275) for file `i`. -/
def visitBlock (i : Nat) (f : File) (bigBlockSize : Int) (blockMap : Finset Int)
    (t : BlockTotals) (j : Int) : BlockTotals :=
  if j ∈ blockMap then
    { totalBlocks := wrap64 (t.totalBlocks + 1),
      partialBlocks :=
        if wrap64 (wrap64 (j + 1) * bigBlockSize) > f.Size then wrap64 (t.partialBlocks + 1)
        else t.partialBlocks,
      neededBlocks := wrap64 (t.neededBlocks + 1),
      neededBlockSize := wrap64 (t.neededBlockSize + neededSize f bigBlockSize j),
      blockAddresses :=
        t.blockAddresses.Set (i : Int) j (fakeAddress i j (neededSize f bigBlockSize j)) }
  else
    { t with totalBlocks := wrap64 (t.totalBlocks + 1) }

/-- The inner loop over the `fileNumBlocks` blocks of file `i`. -/
def visitFile (i : Nat) (f : File) (bigBlockSize : Int) (blockMap : Finset Int)
    (t : BlockTotals) : BlockTotals :=
  let fileNumBlocks := ceilDiv f.Size bigBlockSize
  (List.range fileNumBlocks.toNat).foldl
    (fun (acc : BlockTotals) (j : Nat) => visitBlock i f bigBlockSize blockMap acc (j : Int)) t

/-- The loop `for i, blockMap := range requiredOldBlocks` (`ranges.go`,
lines 259-276), from position `i` on; `none` when `targetContainer.Files[i]` is
out of range. -/
def assignFrom (targetContainer : Container) (bigBlockSize : Int) :
    Nat → List (Finset Int) → BlockTotals → Option BlockTotals
  | _, [], t => some t
  | i, blockMap :: rest, t =>
    match targetContainer.Files[i]? with
    | none => none
    | some f =>
      assignFrom targetContainer bigBlockSize (i + 1) rest
        (visitFile i f bigBlockSize blockMap t)

/-- The address-assignment loop on a given `requiredOldBlocks`. -/
def assignAddresses (targetContainer : Container) (bigBlockSize : Int)
    (requiredOldBlocks : List (Finset Int)) : Option BlockTotals :=
  assignFrom targetContainer bigBlockSize 0 requiredOldBlocks initTotals

/-! ## The null reader -/

/-- The reader that `FakePool` hands out. -/
structure NullReader where
  offset : Int
  size : Int
deriving DecidableEq

/-- The error values a read returns: only `io.EOF`. -/
inductive ReadErr where
  | EOF
deriving DecidableEq

/-- The method `(*NullReader).Read`: the count, the error, and the reader after
the call. Only the length of `buf` is used and `buf` is not written. -/
def NullReader.Read (nr : NullReader) (buf : List UInt8) :
    (Int × Option ReadErr) × NullReader :=
  let newOffset0 := wrap64 (nr.offset + wrap64 (buf.length : Int))
  let newOffset := if newOffset0 ≥ nr.size then nr.size else newOffset0
  let readSize := wrap64 (newOffset - nr.offset)
  let nr1 : NullReader := { nr with offset := newOffset }
  if readSize = 0 then ((0, some ReadErr.EOF), nr1) else ((readSize, none), nr1)

/-- The method `(*FakePool).GetReadSeeker`; `none` when the index is out of range. -/
def GetReadSeeker (container : Container) (fileIndex : Int) : Option NullReader :=
  match index? container.Files fileIndex with
  | none => none
  | some f => some { offset := 0, size := f.Size }

/-- A caller that reads with the buffer `buf` until the first `io.EOF` and adds
up the counts: `some total` when `io.EOF` arrives within `fuel` reads. -/
def readUntilEOF : Nat → NullReader → List UInt8 → Int → Option Int
  | 0, _, _, _ => none
  | fuel + 1, nr, buf, total =>
    match nr.Read buf with
    | ((_, some ReadErr.EOF), _) => some total
    | ((n, none), nr1) => readUntilEOF fuel nr1 buf (total + n)

/-! ## Network errors -/

/-- A Go `error` value, by the dynamic-type tests that `IsNetworkError` makes:
`temporary` is `some b` when the value has a `Temporary()` method returning `b`. -/
inductive GoError where
  | nil
  | ErrUnexpectedEOF
  | causer (cause : GoError) (temporary : Option Bool)
  | urlError (Err : GoError)
  | opError (Err : GoError)
  | other (temporary : Option Bool)
deriving DecidableEq

/-- The function `neterr.IsNetworkError`. -/
def IsNetworkError : GoError → Bool
  | GoError.ErrUnexpectedEOF => true
  | GoError.causer cause _ => IsNetworkError cause
  | GoError.urlError err => IsNetworkError err
  | GoError.opError _ => true
  | GoError.other (some b) => b
  | GoError.other none => false
  | GoError.nil => false

/-- The cause of an error: the end of its chain of `Cause()` calls. -/
def rootCause : GoError → GoError
  | GoError.causer cause _ => rootCause cause
  | e => e

/-! ## Patches by files -/

/-- The pre-pass followed by the address-assignment loop: the sets and the address
map that `doRanges` hands to the pool, `none` when the run stops early. -/
def analyse (targetContainer sourceContainer : Container) (blockSize bigBlockSize : Int)
    (wire : List Message) : Option (List (Finset Int) × BlockAddressMap) :=
  match prePass targetContainer sourceContainer blockSize bigBlockSize wire with
  | Except.error _ => none
  | Except.ok (st, _) =>
    match assignAddresses targetContainer bigBlockSize st.requiredOldBlocks with
    | none => none
    | some t => some (st.requiredOldBlocks, t.blockAddresses)

/-- A source file with the operation stream of that file. -/
abbrev FileOps := File × List SyncOp

/-- An operation stream is complete: its last operation is `HEY_YOU_DID_IT` and no
earlier one is. -/
def isOpStream : List SyncOp → Bool
  | [] => false
  | [last] => decide (last.OpType = SyncOpType.HEY_YOU_DID_IT)
  | o :: rest => decide (o.OpType ≠ SyncOpType.HEY_YOU_DID_IT) && isOpStream rest

/-- The wire of a patch given by files: for each file its header, carrying the
position of the file, and then its operation stream; `k` is the first position. -/
def wireOf : Nat → List FileOps → List Message
  | _, [] => []
  | k, (_, ops) :: rest =>
    Message.header ⟨(k : Int)⟩ :: (ops.map Message.op ++ wireOf (k + 1) rest)

/-- The source container of a patch given by files. -/
def sourceOf (patch : List FileOps) : Container := ⟨patch.map Prod.fst⟩

/-- The closure of `doRanges` applied to the stream of each file in turn, without
the headers. -/
def scanStreams (targetContainer : Container) (blockSize bigBlockSize : Int) :
    List FileOps → Stats → Outcome (Stats × List Message)
  | [], st => Except.ok (st, [])
  | (sourceFile, ops) :: rest, st =>
    match scanOps targetContainer blockSize bigBlockSize sourceFile (ops.map Message.op)
        st initScan with
    | Except.error e => Except.error e
    | Except.ok (st1, _) => scanStreams targetContainer blockSize bigBlockSize rest st1

/-- The sum of two states: counters added as the code adds them, sets united file
by file. -/
def Stats.merge (s x : Stats) : Stats :=
  { numDatas := wrap64 (s.numDatas + x.numDatas),
    numBlockRanges := wrap64 (s.numBlockRanges + x.numBlockRanges),
    unchangedBytes := wrap64 (s.unchangedBytes + x.unchangedBytes),
    movedBytes := wrap64 (s.movedBytes + x.movedBytes),
    freshBytes := wrap64 (s.freshBytes + x.freshBytes),
    requiredOldBlocks :=
      List.zipWith (fun (a b : Finset Int) => a ∪ b) s.requiredOldBlocks x.requiredOldBlocks }

/-- The counters of a state are `int64` values. -/
def Stats.inRange (s : Stats) : Prop :=
  wrap64 s.numDatas = s.numDatas ∧ wrap64 s.numBlockRanges = s.numBlockRanges
    ∧ wrap64 s.unchangedBytes = s.unchangedBytes ∧ wrap64 s.movedBytes = s.movedBytes
    ∧ wrap64 s.freshBytes = s.freshBytes

/-- An outcome with `x` added to its state. -/
def frameOut {α : Type} (x : Stats) : Outcome (Stats × α) → Outcome (Stats × α)
  | Except.error (e, s) => Except.error (e, s.merge x)
  | Except.ok (s, a) => Except.ok (s.merge x, a)

/-! ## Lemmas on the machine arithmetic -/

/-- A value of the `int64` range is its own reduction. -/
theorem wrap64_eq (x : Int) (h0 : -9223372036854775808 ≤ x) (h1 : x < 9223372036854775808) :
    wrap64 x = x := by
  unfold wrap64
  omega

theorem wrap64_range (x : Int) :
    -9223372036854775808 ≤ wrap64 x ∧ wrap64 x < 9223372036854775808 := by
  unfold wrap64
  omega

theorem wrap64_idem (x : Int) : wrap64 (wrap64 x) = wrap64 x := by
  unfold wrap64
  omega

/-! ## Lemmas on the exact quotients -/

theorem floorExact_eq_floor (a b : Int) (hb : 0 < b) :
    floorExact a b = ⌊(a : ℚ) / (b : ℚ)⌋ := by
  have hbq : (0 : ℚ) < (b : ℚ) := by exact_mod_cast hb
  unfold floorExact
  rw [Int.fdiv_eq_ediv a hb.le]
  symm
  rw [Int.floor_eq_iff]
  constructor
  · rw [le_div_iff₀ hbq]
    have := Int.ediv_mul_le a hb.ne'
    exact_mod_cast this
  · rw [div_lt_iff₀ hbq]
    have := Int.lt_ediv_add_one_mul_self a hb
    exact_mod_cast this

theorem ceilExact_eq_ceil (a b : Int) (hb : 0 < b) :
    ceilExact a b = ⌈(a : ℚ) / (b : ℚ)⌉ := by
  have h := floorExact_eq_floor (-a) b hb
  unfold ceilExact
  unfold floorExact at h
  rw [h]
  have : ((-a : Int) : ℚ) / (b : ℚ) = -((a : ℚ) / (b : ℚ)) := by
    push_cast
    ring
  rw [this, Int.floor_neg, neg_neg]

/-- With `b > 0`: `floorExact a b ≤ j` exactly when `a < (j + 1) * b`. -/
theorem floorExact_le_iff (a b j : Int) (hb : 0 < b) :
    floorExact a b ≤ j ↔ a < (j + 1) * b := by
  have hbq : (0 : ℚ) < (b : ℚ) := by exact_mod_cast hb
  rw [floorExact_eq_floor a b hb, ← Int.lt_add_one_iff, Int.floor_lt, div_lt_iff₀ hbq]
  exact_mod_cast Iff.rfl

/-- With `b > 0`: `j < ceilExact a b` exactly when `j * b < a`. -/
theorem lt_ceilExact_iff (a b j : Int) (hb : 0 < b) :
    j < ceilExact a b ↔ j * b < a := by
  have hbq : (0 : ℚ) < (b : ℚ) := by exact_mod_cast hb
  rw [ceilExact_eq_ceil a b hb, Int.lt_ceil, lt_div_iff₀ hbq]
  exact_mod_cast Iff.rfl

/-- Membership in the set that the marking loop returns. -/
theorem mem_markBlocks (blockMap : Finset Int) (s e j : Int) :
    j ∈ markBlocks blockMap s e ↔ j ∈ blockMap ∨ (s ≤ j ∧ j < e) := by
  unfold markBlocks
  have key : ∀ (n : Nat) (m : Finset Int),
      j ∈ (List.range n).foldl (fun (m : Finset Int) (k : Nat) => insert (s + (k : Int)) m) m
        ↔ j ∈ m ∨ (s ≤ j ∧ j < s + (n : Int)) := by
    intro n
    induction n with
    | zero => intro m; simp
    | succ n ih =>
      intro m
      rw [List.range_succ, List.foldl_append]
      simp only [List.foldl_cons, List.foldl_nil, Finset.mem_insert, ih]
      push_cast
      constructor
      · rintro (h | h | h)
        · exact Or.inr ⟨by omega, by omega⟩
        · exact Or.inl h
        · exact Or.inr ⟨h.1, by omega⟩
      · intro h
        by_cases hj : j = s + (n : Int)
        · exact Or.inl hj
        · rcases h with h | h
          · exact Or.inr (Or.inl h)
          · exact Or.inr (Or.inr ⟨h.1, by omega⟩)
  rw [key]
  constructor
  · rintro (h | h)
    · exact Or.inl h
    · exact Or.inr ⟨h.1, by omega⟩
  · rintro (h | h)
    · exact Or.inl h
    · exact Or.inr ⟨h.1, by omega⟩

/-- The marking loop returns the old keys and the interval of new ones. -/
theorem markBlocks_eq (blockMap : Finset Int) (s e : Int) :
    markBlocks blockMap s e = blockMap ∪ Finset.Ico s e := by
  ext j
  rw [mem_markBlocks, Finset.mem_union, Finset.mem_Ico]

/-- With `b > 0`: `floorExact a b * b ≤ a`. -/
theorem floorExact_mul_le (a b : Int) (hb : 0 < b) : floorExact a b * b ≤ a := by
  by_contra h
  push_neg at h
  have := (floorExact_le_iff a b (floorExact a b - 1) hb).2 (by simpa using h)
  omega

/-- With `b > 0` and `0 ≤ a`: the number of blocks is not negative. -/
theorem ceilExact_nonneg (a b : Int) (hb : 0 < b) (ha : 0 ≤ a) : 0 ≤ ceilExact a b := by
  by_contra h
  push_neg at h
  have h1 : ¬ (-1 < ceilExact a b) := by omega
  rw [lt_ceilExact_iff a b (-1) hb] at h1
  omega

/-- With `b > 0`: the blocks cover the file, `a ≤ ceilExact a b * b`. -/
theorem le_ceilExact_mul (a b : Int) (hb : 0 < b) : a ≤ ceilExact a b * b := by
  by_contra h
  push_neg at h
  have := (lt_ceilExact_iff a b (ceilExact a b) hb).2 h
  omega

/-! ## Lemmas on the float64 quotient -/

theorem dropBits_of_lt (fuel Q : Nat) (h : Q < 9007199254740992) : dropBits fuel Q = 0 := by
  cases fuel with
  | zero => rfl
  | succ fuel => simp [dropBits, h]

/-- With enough fuel, `dropBits` leaves a significand of exactly 53 bits. -/
theorem dropBits_spec :
    ∀ (fuel Q : Nat), 9007199254740992 ≤ Q → Q < 9007199254740992 * 2 ^ fuel →
      1 ≤ dropBits fuel Q
        ∧ 4503599627370496 ≤ Q / 2 ^ dropBits fuel Q
        ∧ Q / 2 ^ dropBits fuel Q < 9007199254740992 := by
  intro fuel
  induction fuel with
  | zero =>
    intro Q h0 h1
    simp at h1
    omega
  | succ fuel ih =>
    intro Q h0 h1
    have hne : ¬ Q < 9007199254740992 := by omega
    simp only [dropBits, if_neg hne]
    by_cases hh : Q / 2 < 9007199254740992
    · rw [dropBits_of_lt fuel (Q / 2) hh]
      simp only [Nat.zero_add, pow_one]
      omega
    · have h2 : Q / 2 < 9007199254740992 * 2 ^ fuel := by
        rw [pow_succ] at h1
        omega
      obtain ⟨i1, i2, i3⟩ := ih (Q / 2) (by omega) h2
      have hdiv : Q / 2 ^ (dropBits fuel (Q / 2) + 1) = Q / 2 / 2 ^ dropBits fuel (Q / 2) := by
        rw [pow_succ', Nat.div_div_eq_div_mul]
      rw [hdiv]
      exact ⟨by omega, i2, i3⟩

/-- The arithmetic of one rounded quotient: `a / b` with `a < 2^53`, scaled by
`K * T`, cut to the significand `q` with the remainder `rem` below the unit `K`, and
rounded to nearest (ties to even) to `m` units. The rounded value lies in the same
unit interval as `a / b`, and it is an integer only if `a / b` is. -/
theorem round_core (a b n Q σ K T q rem half m : Nat)
    (hb : 0 < b) (ha2 : a < 9007199254740992)
    (hdm : b * Q + σ = a * (K * T)) (hσ : σ < b)
    (hK : K = 2 * half) (hhalf : 0 < half) (hT : 0 < T)
    (hq : q * K + rem = Q) (hrem : rem < K) (hq52 : 4503599627370496 ≤ q)
    (hn : n = a / b)
    (hm : m = if rem > half ∨ (rem = half ∧ (σ ≠ 0 ∨ q % 2 = 1)) then q + 1 else q) :
    n * T ≤ m ∧ m < (n + 1) * T
      ∧ (a % b = 0 → m = n * T)
      ∧ (a % b ≠ 0 → n * T < m) := by
  have hKT : 0 < K * T := Nat.mul_pos (by omega) hT
  have hdiv : b * n + a % b = a := by rw [hn]; exact Nat.div_add_mod a b
  have hr0 : a % b < b := Nat.mod_lt _ hb
  -- n * T ≤ q
  have D1 : n * T ≤ q := by
    by_contra hcon
    push_neg at hcon
    have h1 : Q + 1 ≤ (q + 1) * K := by
      have : (q + 1) * K = q * K + K := by ring
      omega
    have h2 : (q + 1) * K ≤ n * T * K := Nat.mul_le_mul_right K hcon
    have h3 : b * (Q + 1) ≤ b * (n * T * K) := Nat.mul_le_mul_left b (by omega)
    have h4 : b * (n * T * K) = (b * n) * (K * T) := by ring
    have h5 : (b * n) * (K * T) ≤ a * (K * T) := Nat.mul_le_mul_right _ (by omega)
    have h6 : b * (Q + 1) = b * Q + b := by ring
    omega
  -- q < (n + 1) * T
  have D2 : q < (n + 1) * T := by
    by_contra hcon
    push_neg at hcon
    have h1 : (n + 1) * T * K ≤ q * K := Nat.mul_le_mul_right K hcon
    have h2 : b * ((n + 1) * T * K) ≤ b * Q := Nat.mul_le_mul_left b (by omega)
    have h3 : b * ((n + 1) * T * K) = (b * n + b) * (K * T) := by ring
    have h4 : (a + 1) * (K * T) ≤ (b * n + b) * (K * T) := Nat.mul_le_mul_right _ (by omega)
    have h5 : (a + 1) * (K * T) = a * (K * T) + K * T := by ring
    omega
  -- b < 2 * T
  have D3 : b < 2 * T := by
    by_contra hcon
    push_neg at hcon
    have h1 : 4503599627370496 * K ≤ q * K := Nat.mul_le_mul_right K hq52
    have h2 : (2 * T) * (4503599627370496 * K) ≤ b * Q :=
      Nat.mul_le_mul hcon (by omega)
    have h3 : (2 * T) * (4503599627370496 * K) = 9007199254740992 * (K * T) := by ring
    have h4 : a * (K * T) < 9007199254740992 * (K * T) :=
      Nat.mul_lt_mul_of_pos_right ha2 hKT
    omega
  have hKT2 : K * T = half * (2 * T) := by rw [hK]; ring
  by_cases hup : rem > half ∨ (rem = half ∧ (σ ≠ 0 ∨ q % 2 = 1))
  · -- rounded up
    rw [if_pos hup] at hm
    have hrh : half ≤ rem := by
      rcases hup with h | h
      · omega
      · omega
    have hlt : q + 1 < (n + 1) * T := by
      by_contra hcon
      push_neg at hcon
      have e0 : q + 1 = (n + 1) * T := by omega
      have e1 : (n + 1) * (K * T) = q * K + K := by
        have : (n + 1) * (K * T) = ((n + 1) * T) * K := by ring
        rw [this, ← e0]
        ring
      have e2 : b * ((n + 1) * (K * T)) ≤ b * (Q + half) :=
        Nat.mul_le_mul_left b (by omega)
      have e3 : b * ((n + 1) * (K * T)) = (b * n + b) * (K * T) := by ring
      have e4 : (a + 1) * (K * T) ≤ (b * n + b) * (K * T) :=
        Nat.mul_le_mul_right _ (by omega)
      have e5 : (a + 1) * (K * T) = a * (K * T) + K * T := by ring
      have e6 : b * (Q + half) = b * Q + b * half := by ring
      have e7 : half * (2 * T) ≤ half * b := by
        rw [← hKT2, Nat.mul_comm half b]
        omega
      have := Nat.le_of_mul_le_mul_left e7 hhalf
      omega
    refine ⟨by omega, by omega, ?_, fun _ => by omega⟩
    intro h0
    exfalso
    -- an exact quotient is not rounded up
    have hQ : Q = n * (K * T) ∧ σ = 0 := by
      have ha : a = b * n := by omega
      rw [ha] at hdm
      have h1 : b * n * (K * T) = b * (n * (K * T)) := by ring
      rw [h1] at hdm
      rcases Nat.lt_trichotomy Q (n * (K * T)) with h | h | h
      · have : b * (Q + 1) ≤ b * (n * (K * T)) := Nat.mul_le_mul_left b h
        have e : b * (Q + 1) = b * Q + b := by ring
        omega
      · subst h
        exact ⟨rfl, by omega⟩
      · have : b * (n * (K * T) + 1) ≤ b * Q := Nat.mul_le_mul_left b h
        have e : b * (n * (K * T) + 1) = b * (n * (K * T)) + b := by ring
        omega
    have hq2 : q = n * T := by
      have e : n * (K * T) = (n * T) * K := by ring
      rcases Nat.lt_trichotomy q (n * T) with h | h | h
      · have : (q + 1) * K ≤ n * T * K := Nat.mul_le_mul_right K h
        have e2 : (q + 1) * K = q * K + K := by ring
        omega
      · exact h
      · have : (n * T + 1) * K ≤ q * K := Nat.mul_le_mul_right K h
        have e2 : (n * T + 1) * K = n * T * K + K := by ring
        omega
    have hrem0 : rem = 0 := by
      have e : n * (K * T) = (n * T) * K := by ring
      rw [hq2] at hq
      omega
    omega
  · -- rounded down
    rw [if_neg hup] at hm
    push_neg at hup
    refine ⟨by omega, by omega, ?_, ?_⟩
    · intro h0
      have ha : a = b * n := by omega
      rw [ha] at hdm
      have h1 : b * n * (K * T) = b * (n * (K * T)) := by ring
      rw [h1] at hdm
      have hQ : Q = n * (K * T) := by
        rcases Nat.lt_trichotomy Q (n * (K * T)) with h | h | h
        · have : b * (Q + 1) ≤ b * (n * (K * T)) := Nat.mul_le_mul_left b h
          have e : b * (Q + 1) = b * Q + b := by ring
          omega
        · exact h
        · have : b * (n * (K * T) + 1) ≤ b * Q := Nat.mul_le_mul_left b h
          have e : b * (n * (K * T) + 1) = b * (n * (K * T)) + b := by ring
          omega
      have e : n * (K * T) = (n * T) * K := by ring
      rcases Nat.lt_trichotomy q (n * T) with h | h | h
      · have : (q + 1) * K ≤ n * T * K := Nat.mul_le_mul_right K h
        have e2 : (q + 1) * K = q * K + K := by ring
        omega
      · omega
      · have : (n * T + 1) * K ≤ q * K := Nat.mul_le_mul_right K h
        have e2 : (n * T + 1) * K = n * T * K + K := by ring
        omega
    · intro h0
      by_contra hcon
      have hq2 : q = n * T := by omega
      have hle : b * rem + σ ≤ b * half := by
        rcases Nat.lt_or_ge rem half with h | h
        · have : b * (rem + 1) ≤ b * half := Nat.mul_le_mul_left b h
          have e : b * (rem + 1) = b * rem + b := by ring
          omega
        · have hreq : rem = half := by omega
          have := hup.2 hreq
          rw [hreq]
          omega
      have e1 : b * Q = b * (n * T * K) + b * rem := by
        rw [← hq, hq2]
        ring
      have e2 : a * (K * T) = b * (n * T * K) + (a % b) * (K * T) := by
        have : a * (K * T) = (b * n + a % b) * (K * T) := by rw [hdiv]
        rw [this]
        ring
      have e3 : K * T ≤ (a % b) * (K * T) := Nat.le_mul_of_pos_left _ (by omega)
      have e7 : half * (2 * T) ≤ half * b := by
        rw [← hKT2, Nat.mul_comm half b]
        omega
      have := Nat.le_of_mul_le_mul_left e7 hhalf
      omega

/-- The `float64` quotient of two positive integers below `2^53`, scaled by `2^128`:
its floor is the floor of the exact quotient, and so is its ceiling. -/
theorem round53_quot (a b : Nat) (ha : 0 < a) (ha2 : a < 9007199254740992)
    (hb : 0 < b) (hb2 : b < 9007199254740992) :
    round53 (a * 2 ^ 128 / b) (decide (a * 2 ^ 128 % b ≠ 0)) / 2 ^ 128 = a / b
      ∧ (round53 (a * 2 ^ 128 / b) (decide (a * 2 ^ 128 % b ≠ 0)) + (2 ^ 128 - 1)) / 2 ^ 128
          = if a % b = 0 then a / b else a / b + 1 := by
  have hP : (2 : Nat) ^ 128 = 340282366920938463463374607431768211456 := by norm_num
  have hdm : b * (a * 2 ^ 128 / b) + a * 2 ^ 128 % b = a * 2 ^ 128 := Nat.div_add_mod _ _
  have hσ : a * 2 ^ 128 % b < b := Nat.mod_lt _ hb
  generalize hQ : a * 2 ^ 128 / b = Q at hdm ⊢
  generalize hs : a * 2 ^ 128 % b = σ at hdm hσ ⊢
  have hQlow : 9007199254740992 ≤ Q := by
    by_contra h
    push_neg at h
    have h1 : b * Q ≤ 9007199254740991 * 9007199254740991 :=
      Nat.mul_le_mul (by omega) (by omega)
    have h2 : 1 * 2 ^ 128 ≤ a * 2 ^ 128 := Nat.mul_le_mul_right _ ha
    omega
  have hQhigh : Q < 9007199254740992 * 2 ^ 192 := by
    have h1 : Q ≤ b * Q := Nat.le_mul_of_pos_left Q hb
    have h2 : a * 2 ^ 128 < 9007199254740992 * 2 ^ 128 :=
      Nat.mul_lt_mul_of_pos_right ha2 (by norm_num)
    have h3 : (2 : Nat) ^ 192 = 6277101735386680763835789423207666416102355444464034512896 := by
      norm_num
    omega
  obtain ⟨hk1, hq52, hq53⟩ := dropBits_spec 192 Q hQlow hQhigh
  unfold round53
  rw [if_neg (by omega)]
  dsimp only
  generalize dropBits 192 Q = k at hk1 hq52 hq53 ⊢
  have hqK : Q / 2 ^ k * 2 ^ k + Q % 2 ^ k = Q := Nat.div_add_mod' Q (2 ^ k)
  have hremK : Q % 2 ^ k < 2 ^ k := Nat.mod_lt _ (Nat.pow_pos (by norm_num))
  have hk128 : k ≤ 128 := by
    by_contra hcon
    push_neg at hcon
    have h1 : (2 : Nat) ^ 129 ≤ 2 ^ k := Nat.pow_le_pow_right (by norm_num) hcon
    have h2 : 4503599627370496 * 2 ^ k ≤ Q / 2 ^ k * 2 ^ k := Nat.mul_le_mul_right _ hq52
    have h3 : Q ≤ b * Q := Nat.le_mul_of_pos_left Q hb
    have h4 : a * 2 ^ 128 < 9007199254740992 * 2 ^ 128 :=
      Nat.mul_lt_mul_of_pos_right ha2 (by norm_num)
    have h5 : (2 : Nat) ^ 129 = 680564733841876926926749214863536422912 := by norm_num
    omega
  have hKT : (2 : Nat) ^ 128 = 2 ^ k * 2 ^ (128 - k) := by
    rw [← pow_add]
    congr 1
    omega
  have hKh : (2 : Nat) ^ k = 2 * 2 ^ (k - 1) := by
    rw [← pow_succ']
    congr 1
    omega
  have hTpos : 0 < (2 : Nat) ^ (128 - k) := Nat.pow_pos (by norm_num)
  have hhpos : 0 < (2 : Nat) ^ (k - 1) := Nat.pow_pos (by norm_num)
  have hcore := round_core a b (a / b) Q σ (2 ^ k) (2 ^ (128 - k)) (Q / 2 ^ k) (Q % 2 ^ k)
    (2 ^ (k - 1))
    (if Q % 2 ^ k > 2 ^ (k - 1) ∨ (Q % 2 ^ k = 2 ^ (k - 1) ∧ (σ ≠ 0 ∨ Q / 2 ^ k % 2 = 1))
      then Q / 2 ^ k + 1 else Q / 2 ^ k)
    hb ha2 (by rw [← hKT]; exact hdm) hσ hKh hhpos hTpos hqK hremK hq52 rfl rfl
  obtain ⟨c1, c2, c3, c4⟩ := hcore
  have hR : (if Q % 2 ^ k > 2 ^ (k - 1)
        ∨ (Q % 2 ^ k = 2 ^ (k - 1) ∧ (decide (σ ≠ 0) = true ∨ Q / 2 ^ k % 2 = 1))
      then (Q / 2 ^ k + 1) * 2 ^ k else Q / 2 ^ k * 2 ^ k)
      = (if Q % 2 ^ k > 2 ^ (k - 1) ∨ (Q % 2 ^ k = 2 ^ (k - 1) ∧ (σ ≠ 0 ∨ Q / 2 ^ k % 2 = 1))
          then Q / 2 ^ k + 1 else Q / 2 ^ k) * 2 ^ k := by
    simp only [decide_eq_true_eq]
    split_ifs <;> rfl
  rw [hR]
  generalize (if Q % 2 ^ k > 2 ^ (k - 1) ∨ (Q % 2 ^ k = 2 ^ (k - 1) ∧ (σ ≠ 0 ∨ Q / 2 ^ k % 2 = 1))
          then Q / 2 ^ k + 1 else Q / 2 ^ k) = m at c1 c2 c3 c4 ⊢
  rw [hKT]
  generalize (2 : Nat) ^ k = K at *
  generalize (2 : Nat) ^ (128 - k) = T at *
  have hKpos : 0 < K := by omega
  constructor
  · rw [Nat.mul_comm K T, Nat.mul_div_mul_right _ _ hKpos]
    exact Nat.div_eq_of_lt_le c1 c2
  · have hmK1 : a / b * T * K ≤ m * K := Nat.mul_le_mul_right K c1
    have hmK2 : (m + 1) * K ≤ (a / b + 1) * T * K := Nat.mul_le_mul_right K c2
    have e1 : a / b * T * K = a / b * (K * T) := by ring
    have e2 : (m + 1) * K = m * K + K := by ring
    have e3 : (a / b + 1) * T * K = a / b * (K * T) + K * T := by ring
    have hKTpos : 0 < K * T := Nat.mul_pos hKpos hTpos
    by_cases h0 : a % b = 0
    · rw [if_pos h0]
      have hm := c3 h0
      apply Nat.div_eq_of_lt_le
      · omega
      · have e4 : (a / b + 1) * (K * T) = a / b * (K * T) + K * T := by ring
        have e5 : m * K = a / b * (K * T) := by rw [hm]; ring
        omega
    · rw [if_neg h0]
      have hm := c4 h0
      have hmK3 : (a / b * T + 1) * K ≤ m * K := Nat.mul_le_mul_right K hm
      have e6 : (a / b * T + 1) * K = a / b * (K * T) + K := by ring
      apply Nat.div_eq_of_lt_le
      · have e4 : (a / b + 1) * (K * T) = a / b * (K * T) + K * T := by ring
        omega
      · have e4 : (a / b + 1 + 1) * (K * T) = a / b * (K * T) + K * T + K * T := by ring
        omega

/-- An integer below `2^53` is a `float64`. -/
theorem toFloat64_of_small (x : Int) (h0 : 0 ≤ x) (h1 : x < 9007199254740992) :
    toFloat64 x = x := by
  unfold toFloat64 round53
  rw [if_pos h0, if_pos (by omega)]
  omega

theorem toInt64_of_range (v : Int) (h0 : -9223372036854775808 ≤ v)
    (h1 : v < 9223372036854775808) : toInt64 v = v := by
  unfold toInt64 minInt64
  rw [if_pos ⟨h0, h1⟩]

/-- The exact ceiling of a quotient of natural numbers. -/
theorem ceilExact_natCast (A B : Nat) (hB : 0 < B) :
    ceilExact (A : Int) (B : Int) = ((if A % B = 0 then A / B else A / B + 1 : Nat) : Int) := by
  have hb : (0 : Int) < (B : Int) := by exact_mod_cast hB
  have hdm : B * (A / B) + A % B = A := Nat.div_add_mod A B
  have hr : A % B < B := Nat.mod_lt _ hB
  have key : ∀ c : Nat, (c = 0 → A = 0) → (0 < c → (c - 1) * B < A) → A ≤ c * B →
      ceilExact (A : Int) (B : Int) = (c : Int) := by
    intro c h0 h1 h2
    have u : ¬ ((c : Int) < ceilExact (A : Int) (B : Int)) := by
      rw [lt_ceilExact_iff _ _ _ hb]
      have : ((c * B : Nat) : Int) = (c : Int) * (B : Int) := by push_cast; ring
      have h2i : ((A : Nat) : Int) ≤ ((c * B : Nat) : Int) := by exact_mod_cast h2
      omega
    have l : (c : Int) - 1 < ceilExact (A : Int) (B : Int) := by
      rw [lt_ceilExact_iff _ _ _ hb]
      rcases Nat.eq_zero_or_pos c with hc | hc
      · subst hc
        simp only [Nat.cast_zero, zero_sub]
        have : (0 : Int) < (B : Int) := hb
        have hA : (0 : Int) ≤ (A : Int) := Int.ofNat_nonneg A
        nlinarith
      · have h1' := h1 hc
        have e : (((c - 1) * B : Nat) : Int) = ((c : Int) - 1) * (B : Int) := by
          rw [Nat.cast_mul, Nat.cast_sub hc]
          simp
        have h1i : (((c - 1) * B : Nat) : Int) < ((A : Nat) : Int) := by exact_mod_cast h1'
        omega
    omega
  by_cases h0 : A % B = 0
  · rw [if_pos h0]
    apply key
    · intro hc
      rw [hc] at hdm
      omega
    · intro hc
      have e : (A / B - 1) * B + B = A / B * B := by
        have : A / B - 1 + 1 = A / B := by omega
        calc (A / B - 1) * B + B = (A / B - 1 + 1) * B := by ring
          _ = A / B * B := by rw [this]
      have e2 : A / B * B = B * (A / B) := Nat.mul_comm _ _
      omega
    · have e2 : A / B * B = B * (A / B) := Nat.mul_comm _ _
      omega
  · rw [if_neg h0]
    apply key
    · intro hc
      exact absurd hc (Nat.succ_ne_zero _)
    · intro _
      rw [Nat.add_sub_cancel, Nat.mul_comm]
      generalize B * (A / B) = X at hdm ⊢
      omega
    · have e2 : (A / B + 1) * B = B * (A / B) + B := by ring
      omega

/-- Below `2^53` the floor of the `float64` quotient is the exact floor. -/
theorem floorDiv_exact (a b : Int) (ha : 0 ≤ a) (ha2 : a < 9007199254740992)
    (hb : 0 < b) (hb2 : b < 9007199254740992) : floorDiv a b = floorExact a b := by
  unfold floorDiv floorExact
  rw [toFloat64_of_small a ha ha2, toFloat64_of_small b hb.le hb2, Int.fdiv_eq_ediv a hb.le]
  dsimp only
  rw [if_neg (by omega)]
  by_cases ha0 : a = 0
  · rw [if_pos ha0, ha0]
    simp
  · rw [if_neg ha0]
    have hs : (a < 0) = (b < 0) := by simp [not_lt.mpr ha, not_lt.mpr hb.le]
    rw [if_pos hs]
    obtain ⟨A, rfl⟩ := Int.eq_ofNat_of_zero_le ha
    obtain ⟨B, rfl⟩ := Int.eq_ofNat_of_zero_le hb.le
    have hA : 0 < A := by omega
    have hB : 0 < B := by omega
    have := (round53_quot A B hA (by omega) hB (by omega)).1
    unfold quot64
    simp only [Int.natAbs_ofNat]
    rw [this]
    have hle : A / B ≤ A := Nat.div_le_self A B
    rw [toInt64_of_range _ (by omega) (by omega)]
    exact Int.natCast_div A B

/-- Below `2^53` the ceiling of the `float64` quotient is the exact ceiling. -/
theorem ceilDiv_exact (a b : Int) (ha : 0 ≤ a) (ha2 : a < 9007199254740992)
    (hb : 0 < b) (hb2 : b < 9007199254740992) : ceilDiv a b = ceilExact a b := by
  unfold ceilDiv
  rw [toFloat64_of_small a ha ha2, toFloat64_of_small b hb.le hb2]
  dsimp only
  rw [if_neg (by omega)]
  by_cases ha0 : a = 0
  · rw [if_pos ha0, ha0]
    simp [ceilExact]
  · rw [if_neg ha0]
    have hs : (a < 0) = (b < 0) := by simp [not_lt.mpr ha, not_lt.mpr hb.le]
    rw [if_pos hs]
    obtain ⟨A, rfl⟩ := Int.eq_ofNat_of_zero_le ha
    obtain ⟨B, rfl⟩ := Int.eq_ofNat_of_zero_le hb.le
    have hA : 0 < A := by omega
    have hB : 0 < B := by omega
    have := (round53_quot A B hA (by omega) hB (by omega)).2
    unfold quot64
    simp only [Int.natAbs_ofNat]
    rw [this, ceilExact_natCast A B hB]
    have hle : A / B ≤ A := Nat.div_le_self A B
    apply toInt64_of_range
    · omega
    · split_ifs <;> omega

/-! ## C1 -/

/-- When the range lies within the bounds of a file that ends at least one block
before `2^63`, no product or sum of lines 196-203 leaves the `int64` range. -/
theorem rangeSize_no_wrap (blockSize : Int) (targetFile : File) (rop : SyncOp)
    (hbs : 0 < blockSize) (hidx : 0 ≤ rop.BlockIndex) (hspan : 1 ≤ rop.BlockSpan)
    (hin : rop.BlockIndex + rop.BlockSpan ≤ ceilExact targetFile.Size blockSize)
    (hfit : targetFile.Size + blockSize < 9223372036854775808) :
    rangeSize blockSize targetFile rop
      = if blockSize * (rop.BlockIndex + rop.BlockSpan) > targetFile.Size then
          blockSize * rop.BlockSpan - blockSize + Int.tmod targetFile.Size blockSize
        else blockSize * rop.BlockSpan := by
  have hlow : (rop.BlockIndex + rop.BlockSpan - 1) * blockSize < targetFile.Size :=
    (lt_ceilExact_iff _ _ _ hbs).1 (by omega)
  have hS : 0 ≤ targetFile.Size := by
    have : 0 ≤ (rop.BlockIndex + rop.BlockSpan - 1) * blockSize :=
      mul_nonneg (by omega) hbs.le
    omega
  have e1 : (rop.BlockIndex + rop.BlockSpan - 1) * blockSize
      = blockSize * (rop.BlockIndex + rop.BlockSpan) - blockSize := by ring
  have e2 : blockSize * (rop.BlockIndex + rop.BlockSpan)
      = blockSize * rop.BlockIndex + blockSize * rop.BlockSpan := by ring
  have h1 : 0 ≤ blockSize * rop.BlockIndex := mul_nonneg hbs.le hidx
  have h2 : blockSize ≤ blockSize * rop.BlockSpan := by nlinarith
  have h3 : rop.BlockIndex + rop.BlockSpan ≤ blockSize * (rop.BlockIndex + rop.BlockSpan) := by
    nlinarith
  have ht0 : 0 ≤ Int.tmod targetFile.Size blockSize := by
    rw [Int.tmod_eq_emod hS hbs.le]
    exact Int.emod_nonneg _ hbs.ne'
  have ht1 : Int.tmod targetFile.Size blockSize < blockSize := by
    rw [Int.tmod_eq_emod hS hbs.le]
    exact Int.emod_lt_of_pos _ hbs
  unfold rangeSize
  dsimp only
  rw [wrap64_eq (rop.BlockIndex + rop.BlockSpan) (by omega) (by omega),
    wrap64_eq (blockSize * rop.BlockSpan) (by omega) (by omega),
    wrap64_eq (blockSize * (rop.BlockIndex + rop.BlockSpan)) (by omega) (by omega),
    wrap64_eq (blockSize * rop.BlockSpan - blockSize) (by omega) (by omega),
    wrap64_eq (blockSize * rop.BlockSpan - blockSize + Int.tmod targetFile.Size blockSize)
      (by omega) (by omega)]

/-- The size of a range within the bounds of its file, with its two cases. -/
theorem rangeSize_of_bounds (blockSize : Int) (targetFile : File) (rop : SyncOp)
    (hbs : 0 < blockSize) (hidx : 0 ≤ rop.BlockIndex) (hspan : 1 ≤ rop.BlockSpan)
    (hin : rop.BlockIndex + rop.BlockSpan ≤ ⌈(targetFile.Size : ℚ) / (blockSize : ℚ)⌉)
    (hfit : targetFile.Size + blockSize < 9223372036854775808) :
    rangeSize blockSize targetFile rop
        = min (blockSize * (rop.BlockIndex + rop.BlockSpan)) targetFile.Size
            - blockSize * rop.BlockIndex
      ∧ (blockSize * (rop.BlockIndex + rop.BlockSpan) ≤ targetFile.Size →
          rangeSize blockSize targetFile rop = rop.BlockSpan * blockSize)
      ∧ (targetFile.Size < blockSize * (rop.BlockIndex + rop.BlockSpan) →
          rangeSize blockSize targetFile rop = targetFile.Size - blockSize * rop.BlockIndex) := by
  rw [← ceilExact_eq_ceil _ _ hbs] at hin
  have key := rangeSize_no_wrap blockSize targetFile rop hbs hidx hspan hin hfit
  obtain ⟨path, S⟩ := targetFile
  simp only at hin hfit key ⊢
  set x := rop.BlockIndex + rop.BlockSpan with hx
  have hlow : (x - 1) * blockSize < S := (lt_ceilExact_iff S blockSize (x - 1) hbs).1 (by omega)
  have hxpos : 0 ≤ x - 1 := by omega
  have hSpos : 0 ≤ S := by
    have : 0 ≤ (x - 1) * blockSize := mul_nonneg hxpos hbs.le
    omega
  have hclip : S < blockSize * x →
      rangeSize blockSize ⟨path, S⟩ rop = S - blockSize * rop.BlockIndex := by
    intro hlt
    rw [key, if_pos hlt, Int.tmod_eq_emod hSpos hbs.le]
    have hdm := Int.emod_add_ediv S blockSize
    have hr0 := Int.emod_nonneg S hbs.ne'
    have hr1 := Int.emod_lt_of_pos S hbs
    have hq : S / blockSize = x - 1 := by
      apply le_antisymm
      · by_contra hcon
        push_neg at hcon
        have : blockSize * x ≤ blockSize * (S / blockSize) := by
          apply mul_le_mul_of_nonneg_left _ hbs.le
          omega
        omega
      · by_contra hcon
        push_neg at hcon
        have h2 : blockSize * (S / blockSize + 1) ≤ blockSize * (x - 1) := by
          apply mul_le_mul_of_nonneg_left _ hbs.le
          omega
        have h3 : blockSize * (S / blockSize + 1) = blockSize * (S / blockSize) + blockSize := by
          ring
        have h4 : (x - 1) * blockSize = blockSize * (x - 1) := by ring
        omega
    rw [hq] at hdm
    have h5 : blockSize * (x - 1)
        = blockSize * rop.BlockIndex + blockSize * rop.BlockSpan - blockSize := by
      rw [hx]; ring
    omega
  have hfull : blockSize * x ≤ S →
      rangeSize blockSize ⟨path, S⟩ rop = rop.BlockSpan * blockSize := by
    intro hle
    rw [key, if_neg (by omega)]
    ring
  refine ⟨?_, hfull, hclip⟩
  rcases le_or_lt (blockSize * x) S with hle | hlt
  · rw [hfull hle, min_eq_left hle, hx]
    ring
  · rw [hclip hlt, min_eq_right hlt.le]

/-- C1, the counterexample: a file of `2^63 - 1` bytes, blocks of 65536 bytes, and the
op of block index `2^47 - 1` and span 1, which lies within the bounds of the file
(the file has `2^47` blocks). The aligned end `65536 * 2^47` does not fit an `int64`,
the clipping is skipped and the computed size is 65536, where
`min (blockSize * (blockIndex + blockSpan)) fileSize - blockSize * blockIndex` is
65535. -/
theorem rangeSize_wrap_counterexample :
    (0 : Int) < 65536 ∧ (0 : Int) ≤ 140737488355327 ∧ (1 : Int) ≤ 1
      ∧ (140737488355327 : Int) + 1
          ≤ ⌈((9223372036854775807 : Int) : ℚ) / ((65536 : Int) : ℚ)⌉
      ∧ rangeSize 65536 ⟨"a.bin", 9223372036854775807⟩
          ⟨SyncOpType.BLOCK_RANGE, 0, 140737488355327, 1, []⟩ = 65536
      ∧ min ((65536 : Int) * (140737488355327 + 1)) 9223372036854775807
          - 65536 * 140737488355327 = 65535 := by
  refine ⟨by decide, by decide, by decide, ?_, by decide, by decide⟩
  rw [← ceilExact_eq_ceil _ _ (by decide)]
  decide

/-- C1 as amended: for a `BLOCK_RANGE` op within the bounds of its target file (block
size positive, block index non-negative, span at least one, index plus span at most
the number of blocks of the file), when the file ends at least one block before the
end of the `int64` range (`fileSize + blockSize < 2^63`), the computed `size` is
`min (blockSize * (blockIndex + blockSpan)) fileSize - blockSize * blockIndex`:
`blockSpan * blockSize` when the range ends inside the file and the distance to the
end of the file when it includes the final short block. -/
theorem rangeSize_within_bounds (blockSize : Int) (targetFile : File) (rop : SyncOp)
    (hbs : 0 < blockSize) (hidx : 0 ≤ rop.BlockIndex) (hspan : 1 ≤ rop.BlockSpan)
    (hin : rop.BlockIndex + rop.BlockSpan ≤ ⌈(targetFile.Size : ℚ) / (blockSize : ℚ)⌉)
    (hfit : targetFile.Size + blockSize < 9223372036854775808) :
    rangeSize blockSize targetFile rop
        = min (blockSize * (rop.BlockIndex + rop.BlockSpan)) targetFile.Size
            - blockSize * rop.BlockIndex
      ∧ (blockSize * (rop.BlockIndex + rop.BlockSpan) ≤ targetFile.Size →
          rangeSize blockSize targetFile rop = rop.BlockSpan * blockSize)
      ∧ (targetFile.Size < blockSize * (rop.BlockIndex + rop.BlockSpan) →
          rangeSize blockSize targetFile rop = targetFile.Size - blockSize * rop.BlockIndex) :=
  rangeSize_of_bounds blockSize targetFile rop hbs hidx hspan hin hfit

/-- C1 as amended, at the 10000-byte file of the claim: one block of 65536 bytes at
index 0 has size 10000. -/
theorem rangeSize_within_bounds_witness :
    rangeSize 65536 ⟨"a.bin", 10000⟩ ⟨SyncOpType.BLOCK_RANGE, 0, 0, 1, []⟩
        = min (65536 * (0 + 1)) 10000 - 65536 * 0
      ∧ rangeSize 65536 ⟨"a.bin", 10000⟩ ⟨SyncOpType.BLOCK_RANGE, 0, 0, 1, []⟩ = 10000 := by
  have h := rangeSize_within_bounds 65536 ⟨"a.bin", 10000⟩
    ⟨SyncOpType.BLOCK_RANGE, 0, 0, 1, []⟩ (by decide) (by decide) (by decide)
    (by
      show (0 : Int) + 1 ≤ ⌈((10000 : Int) : ℚ) / ((65536 : Int) : ℚ)⌉
      rw [← ceilExact_eq_ceil 10000 65536 (by decide)]
      decide)
    (by decide)
  exact ⟨h.1, by decide⟩

/-! ## C10 -/

/-- One read that does not pass the end of the `int64` range, without the
reductions. -/
theorem Read_no_wrap (nr : NullReader) (buf : List UInt8)
    (h0 : 0 ≤ nr.offset) (h1 : nr.offset ≤ nr.size)
    (hfit : nr.offset + (buf.length : Int) < 9223372036854775808) :
    nr.Read buf
      = if nr.offset + (buf.length : Int) ≥ nr.size then
          (if nr.size - nr.offset = 0 then ((0, some ReadErr.EOF), { nr with offset := nr.size })
           else ((nr.size - nr.offset, none), { nr with offset := nr.size }))
        else
          (if (buf.length : Int) = 0 then
            ((0, some ReadErr.EOF), { nr with offset := nr.offset + (buf.length : Int) })
           else (((buf.length : Int), none),
             { nr with offset := nr.offset + (buf.length : Int) })) := by
  have hl : (0 : Int) ≤ (buf.length : Int) := Int.ofNat_nonneg _
  unfold NullReader.Read
  dsimp only
  rw [wrap64_eq (buf.length : Int) (by omega) (by omega),
    wrap64_eq (nr.offset + (buf.length : Int)) (by omega) (by omega)]
  by_cases hge : nr.offset + (buf.length : Int) ≥ nr.size
  · simp only [if_pos hge]
    rw [wrap64_eq (nr.size - nr.offset) (by omega) (by omega)]
  · simp only [if_neg hge]
    rw [wrap64_eq (nr.offset + (buf.length : Int) - nr.offset) (by omega) (by omega)]
    have e : nr.offset + (buf.length : Int) - nr.offset = (buf.length : Int) := by omega
    rw [e]

/-- One read: the count is `min (len buf) (size - offset)`. -/
theorem Read_count (nr : NullReader) (buf : List UInt8)
    (h0 : 0 ≤ nr.offset) (h1 : nr.offset ≤ nr.size)
    (hfit : nr.offset + (buf.length : Int) < 9223372036854775808) :
    (nr.Read buf).1.1 = min (buf.length : Int) (nr.size - nr.offset) := by
  rw [Read_no_wrap nr buf h0 h1 hfit, min_def]
  split_ifs <;> dsimp only <;> omega

/-- One read moves the offset by the count and leaves the size alone. -/
theorem Read_offset (nr : NullReader) (buf : List UInt8)
    (h0 : 0 ≤ nr.offset) (h1 : nr.offset ≤ nr.size)
    (hfit : nr.offset + (buf.length : Int) < 9223372036854775808) :
    (nr.Read buf).2.offset = nr.offset + (nr.Read buf).1.1
      ∧ (nr.Read buf).2.size = nr.size := by
  rw [Read_no_wrap nr buf h0 h1 hfit]
  split_ifs <;> dsimp only <;> exact ⟨by omega, rfl⟩

/-- One read returns `io.EOF` exactly when the count is zero, and no error
otherwise. -/
theorem Read_err (nr : NullReader) (buf : List UInt8) :
    ((nr.Read buf).1.2 = some ReadErr.EOF ↔ (nr.Read buf).1.1 = 0)
      ∧ ((nr.Read buf).1.2 = none ↔ (nr.Read buf).1.1 ≠ 0) := by
  unfold NullReader.Read
  dsimp only
  split_ifs with ha hb hb <;> dsimp only
  · simp
  · constructor <;> constructor <;> intro h <;>
      first | exact hb | exact (hb h).elim | exact h.elim | trivial
  · simp
  · constructor <;> constructor <;> intro h <;>
      first | exact hb | exact (hb h).elim | exact h.elim | trivial

/-- Reading with a non-empty buffer until `io.EOF` returns what was left, once the
fuel exceeds the number of bytes left. -/
theorem readUntilEOF_total (buf : List UInt8) (hbuf : buf ≠ []) :
    ∀ (fuel : Nat) (nr : NullReader) (total : Int), 0 ≤ nr.offset → nr.offset ≤ nr.size →
      nr.size + (buf.length : Int) < 9223372036854775808 →
      (nr.size - nr.offset).toNat < fuel →
      readUntilEOF fuel nr buf total = some (total + (nr.size - nr.offset)) := by
  have hlen : 0 < (buf.length : Int) := by
    have := List.length_pos.2 hbuf
    exact_mod_cast this
  intro fuel
  induction fuel with
  | zero => intro nr total _ _ _ h; omega
  | succ fuel ih =>
    intro nr total h0 hle hfit hfuel
    have hc := Read_count nr buf h0 hle (by omega)
    have ho := Read_offset nr buf h0 hle (by omega)
    have he := Read_err nr buf
    unfold readUntilEOF
    rcases hr : nr.Read buf with ⟨⟨n, err⟩, nr1⟩
    rw [hr] at hc ho he
    simp only at hc ho he
    cases err with
    | some e =>
      cases e
      have hn : n = 0 := he.1.1 rfl
      simp only
      congr 1
      rcases min_choice (buf.length : Int) (nr.size - nr.offset) with hm | hm
      · omega
      · omega
    | none =>
      have hn : n ≠ 0 := he.2.1 rfl
      simp only
      have hnpos : 0 < n := by
        rcases min_choice (buf.length : Int) (nr.size - nr.offset) with hm | hm
        · omega
        · have : 0 ≤ nr.size - nr.offset := by omega
          omega
      have hnle : n ≤ nr.size - nr.offset := by
        rw [hc]; exact min_le_right _ _
      rw [ih nr1 (total + n) (by omega) (by omega) (by omega) (by omega)]
      congr 1
      omega

/-- C10, the counterexample: a reader at its end, `offset = size = 2^63 - 1`, and a
buffer of one byte. The sum `offset + len(buf)` does not fit an `int64`, the clamp is
skipped, and `Read` returns `n = 1` without error and leaves the offset at `-2^63`,
where `min (len buf) (size - offset)` is 0. -/
theorem NullReader_Read_wrap_counterexample :
    (0 : Int) ≤ 9223372036854775807
      ∧ NullReader.Read ⟨9223372036854775807, 9223372036854775807⟩ [0]
          = ((1, none), ⟨-9223372036854775808, 9223372036854775807⟩)
      ∧ min (([0] : List UInt8).length : Int) (9223372036854775807 - 9223372036854775807) = 0 := by
  refine ⟨by decide, by decide, by decide⟩

/-- C10 as amended: for a `NullReader` with `0 ≤ offset ≤ size` and a buffer with
`offset + len buf < 2^63`, `Read` returns `n = min (len buf) (size - offset)`, moves
the offset by exactly `n` (so that `0 ≤ offset ≤ size` still holds), returns `io.EOF`
exactly when `n = 0` and no error otherwise; and reading from offset 0 with a
non-empty buffer with `size + len buf < 2^63` until the first `io.EOF` delivers
exactly `size` bytes (within `size + 1` reads). -/
theorem NullReader_Read_spec (nr : NullReader) (buf : List UInt8)
    (h0 : 0 ≤ nr.offset) (h1 : nr.offset ≤ nr.size)
    (hfit : nr.offset + (buf.length : Int) < 9223372036854775808) :
    (nr.Read buf).1.1 = min (buf.length : Int) (nr.size - nr.offset)
      ∧ (nr.Read buf).2.offset = nr.offset + (nr.Read buf).1.1
      ∧ (nr.Read buf).2.size = nr.size
      ∧ 0 ≤ (nr.Read buf).2.offset
      ∧ (nr.Read buf).2.offset ≤ (nr.Read buf).2.size
      ∧ ((nr.Read buf).1.2 = some ReadErr.EOF ↔ (nr.Read buf).1.1 = 0)
      ∧ ((nr.Read buf).1.2 = none ↔ (nr.Read buf).1.1 ≠ 0)
      ∧ (buf ≠ [] → nr.size + (buf.length : Int) < 9223372036854775808 →
          readUntilEOF (nr.size.toNat + 1) { offset := 0, size := nr.size } buf 0
            = some nr.size) := by
  have hc := Read_count nr buf h0 h1 hfit
  have ho := Read_offset nr buf h0 h1 hfit
  have he := Read_err nr buf
  have hn0 : 0 ≤ (nr.Read buf).1.1 := by
    rw [hc]
    exact le_min (by exact_mod_cast Nat.zero_le _) (by omega)
  have hn1 : (nr.Read buf).1.1 ≤ nr.size - nr.offset := by
    rw [hc]; exact min_le_right _ _
  refine ⟨hc, ho.1, ho.2, by omega, by omega, he.1, he.2, ?_⟩
  intro hbuf hfit2
  have h := readUntilEOF_total buf hbuf (nr.size.toNat + 1) { offset := 0, size := nr.size } 0
    (le_refl _) (by show (0 : Int) ≤ nr.size; omega) hfit2
    (by show (nr.size - 0).toNat < nr.size.toNat + 1; simp)
  rw [h]
  simp

/-- C10 as amended, at a reader of 10 bytes, 4 bytes in, with a buffer of 4 bytes. -/
theorem NullReader_Read_spec_witness :
    (0 : Int) ≤ 4 ∧ (4 : Int) ≤ 10
      ∧ ((⟨4, 10⟩ : NullReader).Read [0, 0, 0, 0]).1.1 = 4
      ∧ readUntilEOF 11 ⟨0, 10⟩ [0, 0, 0, 0] 0 = some 10 := by
  have h := NullReader_Read_spec ⟨4, 10⟩ [0, 0, 0, 0] (by decide) (by decide) (by decide)
  exact ⟨by decide, by decide, by decide, h.2.2.2.2.2.2.2 (by decide) (by decide)⟩

/-! ## C8 -/

/-- The function answers `true` when the cause is `io.ErrUnexpectedEOF`, a
`*net.OpError`, or a value whose `Temporary()` returns `true`. -/
theorem IsNetworkError_of_rootCause (e : GoError)
    (h : rootCause e = GoError.ErrUnexpectedEOF
      ∨ (∃ x, rootCause e = GoError.opError x)
      ∨ rootCause e = GoError.other (some true)) :
    IsNetworkError e = true := by
  induction e with
  | nil => simp [rootCause] at h
  | ErrUnexpectedEOF => rfl
  | causer cause t ih => exact ih h
  | urlError err _ => simp [rootCause] at h
  | opError err _ => rfl
  | other t =>
    rcases h with h | ⟨x, h⟩ | h
    · simp [rootCause] at h
    · simp [rootCause] at h
    · simp only [rootCause, GoError.other.injEq] at h
      subst h
      rfl

/-- For a `*url.Error` the function answers what it answers for the wrapped
`Err`. -/
theorem IsNetworkError_urlError (err : GoError) :
    IsNetworkError (GoError.urlError err) = IsNetworkError err := rfl

/-- C8, the failing input: a `*url.Error` that wraps an error which is not a network
error is its own cause, and `IsNetworkError` answers `false` for it, also behind a
chain of `Cause()` calls. -/
theorem IsNetworkError_urlError_false :
    rootCause (GoError.urlError (GoError.other none)) = GoError.urlError (GoError.other none)
      ∧ IsNetworkError (GoError.urlError (GoError.other none)) = false
      ∧ rootCause (GoError.causer (GoError.urlError (GoError.other none)) none)
          = GoError.urlError (GoError.other none)
      ∧ IsNetworkError (GoError.causer (GoError.urlError (GoError.other none)) none) = false := by
  decide

/-! ## Indexing lemmas -/

theorem index?_eq_some {α : Type} {xs : List α} {i : Int} {x : α}
    (h : index? xs i = some x) : 0 ≤ i ∧ i.toNat < xs.length ∧ xs[i.toNat]? = some x := by
  unfold index? at h
  split_ifs at h with h0
  exact ⟨h0, (List.getElem?_eq_some.1 h).1, h⟩

theorem index?_of_lt {α : Type} (xs : List α) (i : Int) (h0 : 0 ≤ i)
    (h1 : i.toNat < xs.length) : ∃ x, index? xs i = some x := by
  unfold index?
  rw [if_pos h0]
  exact ⟨xs[i.toNat], List.getElem?_eq_getElem h1⟩

theorem index?_set_self {α : Type} (xs : List α) (i : Int) (y : α) (h0 : 0 ≤ i)
    (h1 : i.toNat < xs.length) : index? (xs.set i.toNat y) i = some y := by
  unfold index?
  rw [if_pos h0]
  exact List.getElem?_set_self h1

theorem index?_set_ne {α : Type} (xs : List α) (i k : Int) (y : α) (h0 : 0 ≤ i)
    (hne : k ≠ i) : index? (xs.set i.toNat y) k = index? xs k := by
  unfold index?
  split_ifs with hk
  · apply List.getElem?_set_ne
    intro h
    apply hne
    omega
  · rfl

/-! ## C2 -/

set_option maxRecDepth 100000 in
/-- C2, the counterexample, in two runs. First, a moved op of block index `2^47` and
span 1 on a file of 10000 bytes, with fetch blocks of `2^20` bytes: the product
`blockIndex * blockSize` is `2^63` and does not fit an `int64`; the code takes `-2^63`
for the start and inserts the fetch block `-2^43`, where `⌊start / B⌋ = 2^43` and
`⌈end / B⌉ = 2^43 + 1` for `start = blockIndex * blockSize` and `end = start + size`.
Second, a moved op of block index 0 and span `2^37 + 1` on a file of `2^53 + 1` bytes,
with fetch blocks of `2^53` bytes: the range is the whole file, `⌊start / B⌋ = 0` and
`⌈end / B⌉ = 2`; the conversion of `end` to `float64` gives `2^53`, the quotient is 1,
and the code inserts fetch block 0 only. -/
theorem doBlockRange_wrap_counterexample :
    doBlockRange ⟨[⟨"a.bin", 10000⟩]⟩ 65536 1048576 ⟨"b.bin", 65536⟩
        ⟨SyncOpType.BLOCK_RANGE, 0, 140737488355328, 1, []⟩
        (initStats ⟨[⟨"a.bin", 10000⟩]⟩) initScan
      = Except.ok
          ({ numDatas := 0, numBlockRanges := 1, unchangedBytes := 0, movedBytes := 65536,
             freshBytes := 0, requiredOldBlocks := [{-8796093022208}] },
           { sourceOffset := 65536, numMoved := 1, numUnchanged := 0, numFresh := 0 })
      ∧ rangeSize 65536 ⟨"a.bin", 10000⟩
          ⟨SyncOpType.BLOCK_RANGE, 0, 140737488355328, 1, []⟩ = 65536
      ∧ ⌊(((140737488355328 : Int) * 65536 : Int) : ℚ) / ((1048576 : Int) : ℚ)⌋ = 8796093022208
      ∧ ⌈(((140737488355328 : Int) * 65536 + 65536 : Int) : ℚ) / ((1048576 : Int) : ℚ)⌉
          = 8796093022209
      ∧ doBlockRange ⟨[⟨"a.bin", 9007199254740993⟩]⟩ 65536 9007199254740992
          ⟨"b.bin", 9007199254740993⟩
          ⟨SyncOpType.BLOCK_RANGE, 0, 0, 137438953473, []⟩
          (initStats ⟨[⟨"a.bin", 9007199254740993⟩]⟩) initScan
        = Except.ok
            ({ numDatas := 0, numBlockRanges := 1, unchangedBytes := 0,
               movedBytes := 9007199254740993, freshBytes := 0, requiredOldBlocks := [{0}] },
             { sourceOffset := 9007199254740993, numMoved := 1, numUnchanged := 0,
               numFresh := 0 })
      ∧ rangeSize 65536 ⟨"a.bin", 9007199254740993⟩
          ⟨SyncOpType.BLOCK_RANGE, 0, 0, 137438953473, []⟩ = 9007199254740993
      ∧ ⌊(((0 : Int) * 65536 : Int) : ℚ) / ((9007199254740992 : Int) : ℚ)⌋ = 0
      ∧ ⌈(((0 : Int) * 65536 + 9007199254740993 : Int) : ℚ) / ((9007199254740992 : Int) : ℚ)⌉
          = 2 := by
  refine ⟨rfl, by decide, ?_, ?_, rfl, by decide, ?_, ?_⟩
  · rw [← floorExact_eq_floor _ _ (by decide)]
    decide
  · rw [← ceilExact_eq_ceil _ _ (by decide)]
    decide
  · rw [← floorExact_eq_floor _ _ (by decide)]
    decide
  · rw [← ceilExact_eq_ceil _ _ (by decide)]
    decide

/-- The moved case of `BLOCK_RANGE`, when the byte range lies in the `int64` range and
the floor and the ceiling of the two `float64` quotients are those of the exact
quotients: the op succeeds and leaves in `requiredOldBlocks[f]` the old keys together
with exactly the `j` with `⌊start / B⌋ ≤ j < ⌈end / B⌉`. -/
theorem doBlockRange_moved_of_exact (targetContainer : Container)
    (blockSize bigBlockSize : Int) (sourceFile : File) (rop : SyncOp) (st : Stats)
    (loc : FileScan) (targetFile : File)
    (hbs : 0 < blockSize) (hB : 0 < bigBlockSize)
    (hfile : index? targetContainer.Files rop.FileIndex = some targetFile)
    (hlen : st.requiredOldBlocks.length = targetContainer.Files.length)
    (hstart0 : -9223372036854775808 ≤ rop.BlockIndex * blockSize)
    (hend : rop.BlockIndex * blockSize + rangeSize blockSize targetFile rop
      < 9223372036854775808)
    (hmoved : ¬ (targetFile.Path = sourceFile.Path
      ∧ blockSize * rop.BlockIndex = loc.sourceOffset))
    (hne : 0 < rangeSize blockSize targetFile rop)
    (hfloor : floorDiv (rop.BlockIndex * blockSize) bigBlockSize
      = ⌊((rop.BlockIndex * blockSize : Int) : ℚ) / (bigBlockSize : ℚ)⌋)
    (hceil : ceilDiv (rop.BlockIndex * blockSize + rangeSize blockSize targetFile rop)
        bigBlockSize
      = ⌈((rop.BlockIndex * blockSize + rangeSize blockSize targetFile rop : Int) : ℚ)
          / (bigBlockSize : ℚ)⌉) :
    ∃ st1 loc1 blockMap,
      doBlockRange targetContainer blockSize bigBlockSize sourceFile rop st loc
          = Except.ok (st1, loc1)
        ∧ index? st.requiredOldBlocks rop.FileIndex = some blockMap
        ∧ index? st1.requiredOldBlocks rop.FileIndex
            = some (blockMap ∪ Finset.Ico
                ⌊((rop.BlockIndex * blockSize : Int) : ℚ) / (bigBlockSize : ℚ)⌋
                ⌈((rop.BlockIndex * blockSize + rangeSize blockSize targetFile rop : Int) : ℚ)
                    / (bigBlockSize : ℚ)⌉)
        ∧ (∀ k, k ≠ rop.FileIndex →
            index? st1.requiredOldBlocks k = index? st.requiredOldBlocks k)
        ∧ (∀ j : Int,
            (⌊((rop.BlockIndex * blockSize : Int) : ℚ) / (bigBlockSize : ℚ)⌋ ≤ j
              ∧ j < ⌈((rop.BlockIndex * blockSize + rangeSize blockSize targetFile rop : Int) : ℚ)
                    / (bigBlockSize : ℚ)⌉)
            ↔ (j * bigBlockSize < rop.BlockIndex * blockSize + rangeSize blockSize targetFile rop
              ∧ rop.BlockIndex * blockSize < (j + 1) * bigBlockSize)) := by
  obtain ⟨h0, h1, _⟩ := index?_eq_some hfile
  obtain ⟨blockMap, hmap⟩ := index?_of_lt st.requiredOldBlocks rop.FileIndex h0 (by omega)
  have hw1 : wrap64 (rop.BlockIndex * blockSize) = rop.BlockIndex * blockSize :=
    wrap64_eq _ hstart0 (by omega)
  have hw2 : wrap64 (blockSize * rop.BlockIndex) = blockSize * rop.BlockIndex := by
    rw [mul_comm blockSize rop.BlockIndex]
    exact hw1
  have hw3 : wrap64 (rop.BlockIndex * blockSize + rangeSize blockSize targetFile rop)
      = rop.BlockIndex * blockSize + rangeSize blockSize targetFile rop :=
    wrap64_eq _ (by omega) hend
  have hfe := floorExact_eq_floor (rop.BlockIndex * blockSize) bigBlockSize hB
  have hce := ceilExact_eq_ceil
    (rop.BlockIndex * blockSize + rangeSize blockSize targetFile rop) bigBlockSize hB
  rw [← hfloor, ← hceil]
  replace hfloor := hfloor.trans hfe.symm
  replace hceil := hceil.trans hce.symm
  have hlt : floorDiv (rop.BlockIndex * blockSize) bigBlockSize
      < ceilDiv (rop.BlockIndex * blockSize + rangeSize blockSize targetFile rop)
          bigBlockSize := by
    rw [hfloor, hceil, lt_ceilExact_iff _ _ _ hB]
    have := floorExact_mul_le (rop.BlockIndex * blockSize) bigBlockSize hB
    omega
  have hrun : ∃ p, doBlockRange targetContainer blockSize bigBlockSize sourceFile rop st loc
        = Except.ok p
      ∧ p.1.requiredOldBlocks = st.requiredOldBlocks.set rop.FileIndex.toNat
          (markBlocks blockMap (floorDiv (rop.BlockIndex * blockSize) bigBlockSize)
            (ceilDiv (rop.BlockIndex * blockSize + rangeSize blockSize targetFile rop)
              bigBlockSize)) := by
    have hguard : ¬ (blockSize = 0
        ∧ wrap64 (blockSize * wrap64 (rop.BlockIndex + rop.BlockSpan)) > targetFile.Size) :=
      fun h => hbs.ne (h.1.symm)
    unfold doBlockRange
    simp only [hfile, hw1, hw2, hw3, if_neg hguard]
    rw [if_neg hmoved, if_pos hlt]
    simp only [hmap]
    exact ⟨_, rfl, rfl⟩
  obtain ⟨⟨st1, loc1⟩, hrun, hreq⟩ := hrun
  simp only at hreq
  refine ⟨st1, loc1, blockMap, hrun, hmap, ?_, ?_, ?_⟩
  · rw [hreq, index?_set_self _ _ _ h0 (by omega), markBlocks_eq]
  · intro k hk
    rw [hreq]
    exact index?_set_ne _ _ _ _ h0 hk
  · intro j
    rw [hfloor, hceil, floorExact_le_iff _ _ _ hB, lt_ceilExact_iff _ _ _ hB]
    exact And.comm

/-- C2 as amended: a `BLOCK_RANGE` op that is classified as moved, with a non-empty
target byte range `[start, end)` (`start = blockIndex * blockSize`,
`end = start + size`) with `0 ≤ start` and `end < 2^53`, in target file `f`, with a
positive block size and with fetch block size `0 < B < 2^53`, succeeds and leaves in
`requiredOldBlocks[f]` the old keys together with exactly the `j` with
`⌊start / B⌋ ≤ j < ⌈end / B⌉`; these are
exactly the fetch blocks whose byte span `[j * B, (j + 1) * B)` overlaps
`[start, end)`; the sets of the other files are untouched. The state is any state
with one set per target file, as `doRanges` builds it and keeps it
(`prePass_length`). -/
theorem doBlockRange_moved_blocks (targetContainer : Container)
    (blockSize bigBlockSize : Int) (sourceFile : File) (rop : SyncOp) (st : Stats)
    (loc : FileScan) (targetFile : File)
    (hbs : 0 < blockSize) (hB : 0 < bigBlockSize) (hB2 : bigBlockSize < 9007199254740992)
    (hfile : index? targetContainer.Files rop.FileIndex = some targetFile)
    (hlen : st.requiredOldBlocks.length = targetContainer.Files.length)
    (hstart0 : 0 ≤ rop.BlockIndex * blockSize)
    (hend : rop.BlockIndex * blockSize + rangeSize blockSize targetFile rop
      < 9007199254740992)
    (hmoved : ¬ (targetFile.Path = sourceFile.Path
      ∧ blockSize * rop.BlockIndex = loc.sourceOffset))
    (hne : 0 < rangeSize blockSize targetFile rop) :
    ∃ st1 loc1 blockMap,
      doBlockRange targetContainer blockSize bigBlockSize sourceFile rop st loc
          = Except.ok (st1, loc1)
        ∧ index? st.requiredOldBlocks rop.FileIndex = some blockMap
        ∧ index? st1.requiredOldBlocks rop.FileIndex
            = some (blockMap ∪ Finset.Ico
                ⌊((rop.BlockIndex * blockSize : Int) : ℚ) / (bigBlockSize : ℚ)⌋
                ⌈((rop.BlockIndex * blockSize + rangeSize blockSize targetFile rop : Int) : ℚ)
                    / (bigBlockSize : ℚ)⌉)
        ∧ (∀ k, k ≠ rop.FileIndex →
            index? st1.requiredOldBlocks k = index? st.requiredOldBlocks k)
        ∧ (∀ j : Int,
            (⌊((rop.BlockIndex * blockSize : Int) : ℚ) / (bigBlockSize : ℚ)⌋ ≤ j
              ∧ j < ⌈((rop.BlockIndex * blockSize + rangeSize blockSize targetFile rop : Int) : ℚ)
                    / (bigBlockSize : ℚ)⌉)
            ↔ (j * bigBlockSize < rop.BlockIndex * blockSize + rangeSize blockSize targetFile rop
              ∧ rop.BlockIndex * blockSize < (j + 1) * bigBlockSize)) := by
  apply doBlockRange_moved_of_exact targetContainer blockSize bigBlockSize sourceFile rop st
    loc targetFile hbs hB hfile hlen (by omega) (by omega) hmoved hne
  · rw [floorDiv_exact _ _ hstart0 (by omega) hB hB2]
    exact floorExact_eq_floor _ _ hB
  · rw [ceilDiv_exact _ _ (by omega) hend hB hB2]
    exact ceilExact_eq_ceil _ _ hB

/-- C2 as amended, at the scenario of the spec: a file of five fetch blocks of 1 MiB,
and a moved range of sixteen 64 KiB blocks that covers exactly fetch block 3; the set
of the file becomes `{3}`. -/
theorem doBlockRange_moved_blocks_witness :
    ∃ st1 loc1,
      doBlockRange ⟨[⟨"a.bin", 5242880⟩]⟩ 65536 1048576 ⟨"b.bin", 1048576⟩
          ⟨SyncOpType.BLOCK_RANGE, 0, 48, 16, []⟩ (initStats ⟨[⟨"a.bin", 5242880⟩]⟩) initScan
          = Except.ok (st1, loc1)
        ∧ index? st1.requiredOldBlocks 0 = some {3} := by
  obtain ⟨st1, loc1, blockMap, hrun, hold, hnew, -, -⟩ :=
    doBlockRange_moved_blocks ⟨[⟨"a.bin", 5242880⟩]⟩ 65536 1048576 ⟨"b.bin", 1048576⟩
      ⟨SyncOpType.BLOCK_RANGE, 0, 48, 16, []⟩ (initStats ⟨[⟨"a.bin", 5242880⟩]⟩) initScan
      ⟨"a.bin", 5242880⟩ (by decide) (by decide) (by decide) (by decide) (by decide)
      (by decide) (by decide) (by decide) (by decide)
  refine ⟨st1, loc1, hrun, ?_⟩
  have hb : blockMap = ∅ := by
    have h : index? (initStats ⟨[⟨"a.bin", 5242880⟩]⟩).requiredOldBlocks 0
        = some (∅ : Finset Int) := by decide
    rw [h] at hold
    exact (Option.some.inj hold).symm
  rw [hnew, hb, ← floorExact_eq_floor _ _ (by decide), ← ceilExact_eq_ceil _ _ (by decide)]
  decide

/-! ## C3 -/

/-- The range that covers a whole file of `S ≥ 0` bytes from block 0 has size `S`,
when the file ends at least one block before `2^63`. -/
theorem rangeSize_whole_file (blockSize : Int) (targetFile : File) (rop : SyncOp)
    (hbs : 0 < blockSize) (hS : 0 ≤ targetFile.Size) (hidx : rop.BlockIndex = 0)
    (hspan : rop.BlockSpan = ⌈(targetFile.Size : ℚ) / (blockSize : ℚ)⌉)
    (hfit : targetFile.Size + blockSize < 9223372036854775808) :
    rangeSize blockSize targetFile rop = targetFile.Size := by
  have hc : ⌈(targetFile.Size : ℚ) / (blockSize : ℚ)⌉ = ceilExact targetFile.Size blockSize :=
    (ceilExact_eq_ceil _ _ hbs).symm
  rcases hS.eq_or_lt with h0 | hpos
  · have hz : rop.BlockSpan = 0 := by
      rw [hspan, ← h0]
      simp
    have w0 : wrap64 0 = 0 := rfl
    unfold rangeSize
    simp only [hidx, hz, ← h0]
    simp [w0]
  · have h1 : 1 ≤ rop.BlockSpan := by
      rw [hspan, hc]
      have := (lt_ceilExact_iff targetFile.Size blockSize 0 hbs).2 (by simpa using hpos)
      omega
    have h := (rangeSize_of_bounds blockSize targetFile rop hbs (by omega) h1
      (by rw [hidx, hspan]; simp) hfit).1
    rw [h, hidx]
    have hge : targetFile.Size ≤ blockSize * (0 + rop.BlockSpan) := by
      by_contra hcon
      push_neg at hcon
      have := (lt_ceilExact_iff targetFile.Size blockSize rop.BlockSpan hbs).2
        (by rw [mul_comm]; simpa using hcon)
      rw [hspan, hc] at this
      omega
    rw [min_eq_right hge]
    simp

set_option maxRecDepth 100000 in
/-- C3, the counterexample: a file of `S = 2^63 - 1` bytes with blocks of 65536 bytes
has `⌈S / blockSize⌉ = 2^47` blocks. For the single range over the whole file the
product `blockSize * blockSpan` is `2^63` and does not fit an `int64`: the size is
`-2^63`, the clipping is skipped, and the pre-pass ends with
`unchangedBytes = -2^63`, not `S`. -/
theorem prePass_unchanged_wrap_counterexample :
    ⌈((9223372036854775807 : Int) : ℚ) / ((65536 : Int) : ℚ)⌉ = 140737488355328
      ∧ prePass ⟨[⟨"a.bin", 9223372036854775807⟩]⟩ ⟨[⟨"a.bin", 9223372036854775807⟩]⟩
          65536 1048576
          [Message.header ⟨0⟩,
           Message.op ⟨SyncOpType.BLOCK_RANGE, 0, 0, 140737488355328, []⟩,
           Message.op ⟨SyncOpType.HEY_YOU_DID_IT, 0, 0, 0, []⟩]
        = Except.ok
            ({ numDatas := 0, numBlockRanges := 1, unchangedBytes := -9223372036854775808,
               movedBytes := 0, freshBytes := 0, requiredOldBlocks := [∅] }, []) := by
  refine ⟨?_, rfl⟩
  rw [← ceilExact_eq_ceil _ _ (by decide)]
  decide

/-- C3 as amended: for every file size `S ≥ 0` with `S + blockSize < 2^63`, when the
target and the source container each consist of one file with the same path and
size `S`, and the wire holds the header of file 0, a single `BLOCK_RANGE` with file
index 0, block index 0 and span `⌈S / blockSize⌉`, and the terminator, the pre-pass
succeeds, counts the range as unchanged (`requiredOldBlocks` stays empty) and ends
with `unchangedBytes = S`, `movedBytes = 0` and `freshBytes = 0`. -/
theorem prePass_unchanged_file (path : String) (S blockSize bigBlockSize : Int)
    (data : List UInt8) (last : SyncOp)
    (hS : 0 ≤ S) (hbs : 0 < blockSize) (hlast : last.OpType = SyncOpType.HEY_YOU_DID_IT)
    (hfit : S + blockSize < 9223372036854775808) :
    prePass ⟨[⟨path, S⟩]⟩ ⟨[⟨path, S⟩]⟩ blockSize bigBlockSize
        [Message.header ⟨0⟩,
         Message.op ⟨SyncOpType.BLOCK_RANGE, 0, 0, ⌈(S : ℚ) / (blockSize : ℚ)⌉, data⟩,
         Message.op last]
      = Except.ok
          ({ numDatas := 0, numBlockRanges := 1, unchangedBytes := S, movedBytes := 0,
             freshBytes := 0, requiredOldBlocks := [∅] }, []) := by
  have hsize := rangeSize_whole_file blockSize ⟨path, S⟩
    ⟨SyncOpType.BLOCK_RANGE, 0, 0, ⌈(S : ℚ) / (blockSize : ℚ)⌉, data⟩ hbs hS rfl rfl hfit
  have hidx : index? [(⟨path, S⟩ : File)] 0 = some ⟨path, S⟩ := rfl
  have w0 : wrap64 0 = 0 := rfl
  have w1 : wrap64 1 = 1 := rfl
  have wS : wrap64 S = S := wrap64_eq S (by omega) (by omega)
  simp [prePass, scanFiles, readSyncHeader, scanOps, doBlockRange, hidx, hsize, hlast,
    initStats, initScan, w0, w1, wS, hbs.ne.symm]

/-- C3 as amended, at the file of 10000 bytes of the spec, with blocks of 65536
bytes. -/
theorem prePass_unchanged_file_witness :
    prePass ⟨[⟨"a.bin", 10000⟩]⟩ ⟨[⟨"a.bin", 10000⟩]⟩ 65536 1048576
        [Message.header ⟨0⟩,
         Message.op ⟨SyncOpType.BLOCK_RANGE, 0, 0, ⌈((10000 : Int) : ℚ) / ((65536 : Int) : ℚ)⌉, []⟩,
         Message.op ⟨SyncOpType.HEY_YOU_DID_IT, 0, 0, 0, []⟩]
      = Except.ok
          ({ numDatas := 0, numBlockRanges := 1, unchangedBytes := 10000, movedBytes := 0,
             freshBytes := 0, requiredOldBlocks := [∅] }, []) :=
  prePass_unchanged_file "a.bin" 10000 65536 1048576 [] ⟨SyncOpType.HEY_YOU_DID_IT, 0, 0, 0, []⟩
    (by decide) (by decide) rfl (by decide)

/-! ## C4 -/

/-- A failing `BLOCK_RANGE` case is a run-time abort, on an index or on a zero
divisor. -/
theorem doBlockRange_error (targetContainer : Container) (blockSize bigBlockSize : Int)
    (sourceFile : File) (rop : SyncOp) (st : Stats) (loc : FileScan) (e : Failure × Stats)
    (h : doBlockRange targetContainer blockSize bigBlockSize sourceFile rop st loc
      = Except.error e) :
    e.1 = Failure.indexOutOfRange ∨ e.1 = Failure.divideByZero := by
  unfold doBlockRange at h
  dsimp only at h
  split at h
  · cases h
    exact Or.inl rfl
  · split_ifs at h
    · cases h
      exact Or.inr rfl
    · split at h
      · cases h
        exact Or.inl rfl
      · cases h

/-- The closure that reads one file's operations never returns
`pwr.ErrMalformedPatch`. -/
theorem scanOps_error (targetContainer : Container) (blockSize bigBlockSize : Int)
    (sourceFile : File) :
    ∀ (wire : List Message) (st : Stats) (loc : FileScan) (e : Failure × Stats),
      scanOps targetContainer blockSize bigBlockSize sourceFile wire st loc = Except.error e →
      e.1 ≠ Failure.malformedPatch := by
  intro wire
  induction wire with
  | nil =>
    intro st loc e h
    unfold scanOps at h
    cases h
    exact fun h1 => Failure.noConfusion h1
  | cons m rest ih =>
    intro st loc e h
    cases m with
    | header sh =>
      unfold scanOps at h
      cases h
      exact fun h1 => Failure.noConfusion h1
    | op rop =>
      unfold scanOps at h
      split at h
      · split at h
        · cases h
          rename_i e1 he
          rcases doBlockRange_error _ _ _ _ _ _ _ _ he with h2 | h2 <;> rw [h2] <;>
            exact fun h1 => Failure.noConfusion h1
        · exact ih _ _ _ h
      · exact ih _ _ _ h
      · cases h
      · exact ih _ _ _ h

/-- The loop over the source files fails with `pwr.ErrMalformedPatch` exactly when,
at some position `i` of the list, the files before `i` have been read completely
and the header then read carries an index different from the position; the state
at the failure is the state after the files before `i`. -/
theorem scanFiles_malformed_iff (targetContainer : Container) (blockSize bigBlockSize : Int)
    (s : Stats) :
    ∀ (files : List File) (k : Nat) (st : Stats) (wire : List Message),
      scanFiles targetContainer blockSize bigBlockSize k files st wire
          = Except.error (Failure.malformedPatch, s)
        ↔ ∃ (i : Nat) (w : List Message) (sh : SyncHeader) (rest : List Message),
            i < files.length
              ∧ scanFiles targetContainer blockSize bigBlockSize k (files.take i) st wire
                  = Except.ok (s, w)
              ∧ readSyncHeader w = some (sh, rest)
              ∧ sh.FileIndex ≠ ((k + i : Nat) : Int) := by
  intro files
  induction files with
  | nil =>
    intro k st wire
    constructor
    · intro h
      unfold scanFiles at h
      cases h
    · rintro ⟨i, w, sh, rest, hi, -⟩
      simp at hi
  | cons f fs ih =>
    intro k st wire
    rcases hrd : readSyncHeader wire with _ | ⟨sh0, w1⟩
    · -- the header cannot be read
      constructor
      · intro h
        simp only [scanFiles, hrd] at h
        cases h
      · rintro ⟨i, w, sh, rest, hi, hrun, hread, hne⟩
        cases i with
        | zero =>
          simp only [List.take_zero, scanFiles] at hrun
          cases hrun
          rw [hrd] at hread
          cases hread
        | succ i =>
          simp only [List.take_succ_cons, scanFiles, hrd] at hrun
          cases hrun
    · by_cases hk : sh0.FileIndex ≠ (k : Int)
      · -- the header carries another index
        constructor
        · intro h
          simp only [scanFiles, hrd, if_pos hk] at h
          cases h
          exact ⟨0, wire, sh0, w1, by simp, by simp [scanFiles], hrd, by simpa using hk⟩
        · rintro ⟨i, w, sh, rest, hi, hrun, hread, hne⟩
          cases i with
          | zero =>
            simp only [List.take_zero, scanFiles] at hrun
            cases hrun
            simp only [scanFiles, hrd, if_pos hk]
          | succ i =>
            simp only [List.take_succ_cons, scanFiles, hrd, if_pos hk] at hrun
            cases hrun
      · -- the header carries the index of the position
        rcases hops : scanOps targetContainer blockSize bigBlockSize f w1 st initScan
          with e | ⟨st1, w2⟩
        · constructor
          · intro h
            simp only [scanFiles, hrd, if_neg hk, hops] at h
            cases h
            exact absurd rfl (scanOps_error _ _ _ _ _ _ _ _ hops)
          · rintro ⟨i, w, sh, rest, hi, hrun, hread, hne⟩
            cases i with
            | zero =>
              simp only [List.take_zero, scanFiles] at hrun
              cases hrun
              rw [hrd] at hread
              cases hread
              exact absurd (by simpa using hne) hk
            | succ i =>
              simp only [List.take_succ_cons, scanFiles, hrd, if_neg hk, hops] at hrun
              cases hrun
        · have hstep : ∀ fs1 : List File,
              scanFiles targetContainer blockSize bigBlockSize k (f :: fs1) st wire
                = scanFiles targetContainer blockSize bigBlockSize (k + 1) fs1 st1 w2 := by
            intro fs1
            simp only [scanFiles, hrd, if_neg hk, hops]
          rw [hstep, ih (k + 1) st1 w2]
          constructor
          · rintro ⟨i, w, sh, rest, hi, hrun, hread, hne⟩
            refine ⟨i + 1, w, sh, rest, by simpa using hi, ?_, hread, ?_⟩
            · rw [List.take_succ_cons, hstep]
              exact hrun
            · rw [show k + (i + 1) = k + 1 + i by omega]
              exact hne
          · rintro ⟨i, w, sh, rest, hi, hrun, hread, hne⟩
            cases i with
            | zero =>
              simp only [List.take_zero, scanFiles] at hrun
              cases hrun
              rw [hrd] at hread
              cases hread
              exact absurd (by simpa using hne) hk
            | succ i =>
              rw [List.take_succ_cons, hstep] at hrun
              refine ⟨i, w, sh, rest, by simpa using hi, hrun, hread, ?_⟩
              rw [show k + 1 + i = k + (i + 1) by omega]
              exact hne

/-- C4: the pre-pass fails with `pwr.ErrMalformedPatch`, in state `s`, exactly when
there is a position `i` of the source container such that the files before `i` have
been read completely, leaving the state `s`, and the sync header read for position
`i` carries a `FileIndex` different from `i`: at the failure no operation of file
`i` has been read or counted, and the counters and `requiredOldBlocks` are those
after file `i - 1`. -/
theorem prePass_malformed_iff (targetContainer sourceContainer : Container)
    (blockSize bigBlockSize : Int) (wire : List Message) (s : Stats) :
    prePass targetContainer sourceContainer blockSize bigBlockSize wire
        = Except.error (Failure.malformedPatch, s)
      ↔ ∃ (i : Nat) (w : List Message) (sh : SyncHeader) (rest : List Message),
          i < sourceContainer.Files.length
            ∧ prePass targetContainer ⟨sourceContainer.Files.take i⟩ blockSize bigBlockSize wire
                = Except.ok (s, w)
            ∧ readSyncHeader w = some (sh, rest)
            ∧ sh.FileIndex ≠ (i : Int) := by
  unfold prePass
  rw [scanFiles_malformed_iff]
  simp only [Nat.zero_add]

/-- The scenario of the spec: two source files, the second header claims index 2
where index 1 is expected; the failure carries the state after file 0. -/
theorem prePass_malformed_example :
    prePass ⟨[⟨"a.bin", 10000⟩]⟩ ⟨[⟨"a.bin", 10000⟩, ⟨"b.bin", 5⟩]⟩ 65536 1048576
        [Message.header ⟨0⟩,
         Message.op ⟨SyncOpType.BLOCK_RANGE, 0, 0, 1, []⟩,
         Message.op ⟨SyncOpType.HEY_YOU_DID_IT, 0, 0, 0, []⟩,
         Message.header ⟨2⟩,
         Message.op ⟨SyncOpType.DATA, 0, 0, 0, [1, 2, 3, 4, 5]⟩,
         Message.op ⟨SyncOpType.HEY_YOU_DID_IT, 0, 0, 0, []⟩]
      = Except.error (Failure.malformedPatch,
          { numDatas := 0, numBlockRanges := 1, unchangedBytes := 10000, movedBytes := 0,
            freshBytes := 0, requiredOldBlocks := [∅] }) := by
  rfl

/-! ## C5 -/

/-- C5, the counterexample: for a file of 10000 bytes (one block of 65536 bytes), the
op with block index 0 and span 5 exceeds the bounds of the file, and it is counted,
with 272144 unchanged bytes, without any error; the op with file index 7 names no
file of the target container, and the failure is the index failure, not
`pwr.ErrMalformedPatch`. -/
theorem doBlockRange_out_of_bounds_counterexample :
    (0 : Int) + 5 > ⌈((10000 : Int) : ℚ) / ((65536 : Int) : ℚ)⌉
      ∧ doBlockRange ⟨[⟨"a.bin", 10000⟩]⟩ 65536 1048576 ⟨"a.bin", 10000⟩
          ⟨SyncOpType.BLOCK_RANGE, 0, 0, 5, []⟩ (initStats ⟨[⟨"a.bin", 10000⟩]⟩) initScan
        = Except.ok
            ({ numDatas := 0, numBlockRanges := 1, unchangedBytes := 272144, movedBytes := 0,
               freshBytes := 0, requiredOldBlocks := [∅] },
             { sourceOffset := 272144, numMoved := 0, numUnchanged := 1, numFresh := 0 })
      ∧ index? (⟨[⟨"a.bin", 10000⟩]⟩ : Container).Files 7 = none
      ∧ doBlockRange ⟨[⟨"a.bin", 10000⟩]⟩ 65536 1048576 ⟨"a.bin", 10000⟩
          ⟨SyncOpType.BLOCK_RANGE, 7, 0, 1, []⟩ (initStats ⟨[⟨"a.bin", 10000⟩]⟩) initScan
        = Except.error (Failure.indexOutOfRange, initStats ⟨[⟨"a.bin", 10000⟩]⟩) := by
  refine ⟨?_, rfl, rfl, rfl⟩
  rw [← ceilExact_eq_ceil _ _ (by decide)]
  decide

/-- C5 as amended: for a `BLOCK_RANGE` op that is out of bounds (its file index names
no file of the target container, or its span ends after the last block of the target
file) and a positive block size, the `BLOCK_RANGE` case of the op interpreter of the pre-pass does not return
`pwr.ErrMalformedPatch`. When the file index names no file, the run aborts on the
index, before any counter or set is changed. When the file index names a file, no
error arises and the op is counted like any other: `numBlockRanges` is incremented
and the computed `size` is added to the source offset and to the unchanged or to the
moved bytes. The state is any state with one set per target file. -/
theorem doBlockRange_out_of_bounds (targetContainer : Container)
    (blockSize bigBlockSize : Int) (sourceFile : File) (rop : SyncOp) (st : Stats)
    (loc : FileScan) (hbs : 0 < blockSize)
    (hlen : st.requiredOldBlocks.length = targetContainer.Files.length)
    (hout : ∀ targetFile, index? targetContainer.Files rop.FileIndex = some targetFile →
      rop.BlockIndex + rop.BlockSpan > ⌈(targetFile.Size : ℚ) / (blockSize : ℚ)⌉) :
    (∀ s, doBlockRange targetContainer blockSize bigBlockSize sourceFile rop st loc
        ≠ Except.error (Failure.malformedPatch, s))
      ∧ match index? targetContainer.Files rop.FileIndex with
        | none =>
          doBlockRange targetContainer blockSize bigBlockSize sourceFile rop st loc
            = Except.error (Failure.indexOutOfRange, st)
        | some targetFile =>
          rop.BlockIndex + rop.BlockSpan > ⌈(targetFile.Size : ℚ) / (blockSize : ℚ)⌉
            ∧ ∃ st1 loc1,
                doBlockRange targetContainer blockSize bigBlockSize sourceFile rop st loc
                    = Except.ok (st1, loc1)
                  ∧ st1.numBlockRanges = wrap64 (st.numBlockRanges + 1)
                  ∧ loc1.sourceOffset
                      = wrap64 (loc.sourceOffset + rangeSize blockSize targetFile rop)
                  ∧ st1.unchangedBytes =
                      (if targetFile.Path = sourceFile.Path
                          ∧ wrap64 (blockSize * rop.BlockIndex) = loc.sourceOffset
                        then wrap64 (st.unchangedBytes + rangeSize blockSize targetFile rop)
                        else st.unchangedBytes)
                  ∧ st1.movedBytes =
                      (if targetFile.Path = sourceFile.Path
                          ∧ wrap64 (blockSize * rop.BlockIndex) = loc.sourceOffset
                        then st.movedBytes
                        else wrap64 (st.movedBytes + rangeSize blockSize targetFile rop)) := by
  constructor
  · intro s h
    rcases doBlockRange_error _ _ _ _ _ _ _ _ h with h2 | h2 <;>
      exact Failure.noConfusion h2
  · rcases hfile : index? targetContainer.Files rop.FileIndex with _ | targetFile
    · simp only
      unfold doBlockRange
      simp only [hfile]
    · simp only
      refine ⟨hout targetFile hfile, ?_⟩
      obtain ⟨h0, h1, _⟩ := index?_eq_some hfile
      obtain ⟨blockMap, hmap⟩ :=
        index?_of_lt st.requiredOldBlocks rop.FileIndex h0 (by omega)
      have hguard : ¬ (blockSize = 0
          ∧ wrap64 (blockSize * wrap64 (rop.BlockIndex + rop.BlockSpan)) > targetFile.Size) :=
        fun h => hbs.ne (h.1.symm)
      unfold doBlockRange
      simp only [hfile, hmap, if_neg hguard]
      split_ifs with hu hlt
      · exact ⟨_, _, rfl, rfl, rfl, rfl, rfl⟩
      · exact ⟨_, _, rfl, rfl, rfl, rfl, rfl⟩
      · exact ⟨_, _, rfl, rfl, rfl, rfl, rfl⟩

/-- C5 as amended, at the first op of the counterexample. -/
theorem doBlockRange_out_of_bounds_witness :
    (∀ s, doBlockRange ⟨[⟨"a.bin", 10000⟩]⟩ 65536 1048576 ⟨"a.bin", 10000⟩
        ⟨SyncOpType.BLOCK_RANGE, 0, 0, 5, []⟩ (initStats ⟨[⟨"a.bin", 10000⟩]⟩) initScan
        ≠ Except.error (Failure.malformedPatch, s))
      ∧ (0 : Int) + 5 > ⌈((10000 : Int) : ℚ) / ((65536 : Int) : ℚ)⌉ := by
  have h := doBlockRange_out_of_bounds ⟨[⟨"a.bin", 10000⟩]⟩ 65536 1048576 ⟨"a.bin", 10000⟩
    ⟨SyncOpType.BLOCK_RANGE, 0, 0, 5, []⟩ (initStats ⟨[⟨"a.bin", 10000⟩]⟩) initScan
    (by decide) (by decide)
    (by
      intro targetFile hfile
      have hf : targetFile = ⟨"a.bin", 10000⟩ := by
        have h2 : index? (⟨[⟨"a.bin", 10000⟩]⟩ : Container).Files
            (⟨SyncOpType.BLOCK_RANGE, 0, 0, 5, []⟩ : SyncOp).FileIndex
            = some ⟨"a.bin", 10000⟩ := rfl
        rw [h2] at hfile
        exact (Option.some.inj hfile).symm
      subst hf
      show (0 : Int) + 5 > ⌈((10000 : Int) : ℚ) / ((65536 : Int) : ℚ)⌉
      rw [← ceilExact_eq_ceil 10000 65536 (by decide)]
      decide)
  exact ⟨h.1, h.2.1⟩

/-! ## Lemmas on the address-assignment loop -/

/-- With `b ≥ 1` and `0 ≤ a`: a file has at most as many blocks as bytes. -/
theorem ceilExact_le_self (a b : Int) (hb : 0 < b) (ha : 0 ≤ a) : ceilExact a b ≤ a := by
  by_contra h
  push_neg at h
  have h1 := (lt_ceilExact_iff a b a hb).1 h
  nlinarith

/-- The size of block `j` of a file below `2^53` bytes, for `j` among the blocks of
the file: a full block, or what is left of the file after `j` full blocks. -/
theorem neededSize_eq (f : File) (bigBlockSize j : Int) (hB : 0 < bigBlockSize)
    (hB2 : bigBlockSize < 9007199254740992) (hS2 : f.Size < 9007199254740992)
    (hj0 : 0 ≤ j) (hj : j < ceilExact f.Size bigBlockSize) :
    neededSize f bigBlockSize j
      = if (j + 1) * bigBlockSize ≤ f.Size then bigBlockSize else f.Size - j * bigBlockSize := by
  have hlt : j * bigBlockSize < f.Size := (lt_ceilExact_iff _ _ _ hB).1 hj
  have hS : 0 ≤ f.Size := by
    have : 0 ≤ j * bigBlockSize := mul_nonneg hj0 hB.le
    omega
  have hjj : j ≤ j * bigBlockSize := by nlinarith
  have e1 : (j + 1) * bigBlockSize = j * bigBlockSize + bigBlockSize := by ring
  unfold neededSize
  rw [wrap64_eq (j + 1) (by omega) (by omega),
    wrap64_eq ((j + 1) * bigBlockSize) (by omega) (by omega)]
  by_cases hc : (j + 1) * bigBlockSize > f.Size
  · rw [if_pos hc, if_neg (by omega), Int.tmod_eq_emod hS hB.le]
    have hdm := Int.emod_add_ediv f.Size bigBlockSize
    have hq : f.Size / bigBlockSize = j := by
      apply le_antisymm
      · have := (floorExact_le_iff f.Size bigBlockSize j hB).2 hc
        unfold floorExact at this
        rwa [Int.fdiv_eq_ediv _ hB.le] at this
      · exact (Int.le_ediv_iff_mul_le hB).2 hlt.le
    rw [hq] at hdm
    have : bigBlockSize * j = j * bigBlockSize := mul_comm _ _
    omega
  · rw [if_neg hc, if_pos (by omega)]

/-- The same size, as the difference of two clipped offsets. -/
theorem neededSize_eq_min (f : File) (bigBlockSize j : Int) (hB : 0 < bigBlockSize)
    (hB2 : bigBlockSize < 9007199254740992) (hS2 : f.Size < 9007199254740992)
    (hj0 : 0 ≤ j) (hj : j < ceilExact f.Size bigBlockSize) :
    neededSize f bigBlockSize j
      = min ((j + 1) * bigBlockSize) f.Size - min (j * bigBlockSize) f.Size := by
  have hlt : j * bigBlockSize < f.Size := (lt_ceilExact_iff _ _ _ hB).1 hj
  rw [neededSize_eq f bigBlockSize j hB hB2 hS2 hj0 hj, min_eq_left hlt.le]
  split_ifs with hc
  · rw [min_eq_left hc]
    ring
  · rw [min_eq_right (by omega)]

/-- The addresses after the first `p` rounds of the loop over the blocks of file `i`. -/
theorem visit_prefix_addr (i : Nat) (f : File) (bigBlockSize : Int) (blockMap : Finset Int)
    (a b : Int) :
    ∀ (p : Nat) (t : BlockTotals),
      ((List.range p).foldl
          (fun (acc : BlockTotals) (j : Nat) => visitBlock i f bigBlockSize blockMap acc (j : Int))
          t).blockAddresses a b
        = if a = (i : Int) ∧ 0 ≤ b ∧ b < (p : Int) ∧ b ∈ blockMap then
            some (fakeAddress i b (neededSize f bigBlockSize b))
          else t.blockAddresses a b := by
  intro p
  induction p with
  | zero =>
    intro t
    rw [if_neg]
    · rfl
    · rintro ⟨-, h0, h1, -⟩
      simp at h1
      omega
  | succ p ih =>
    intro t
    rw [List.range_succ, List.foldl_append]
    simp only [List.foldl_cons, List.foldl_nil]
    have ih1 := ih t
    generalize List.foldl _ t (List.range p) = acc at ih1 ⊢
    unfold visitBlock
    by_cases hp : (p : Int) ∈ blockMap
    · rw [if_pos hp]
      simp only [BlockAddressMap.Set]
      by_cases hab : a = (i : Int) ∧ b = (p : Int)
      · obtain ⟨ha, hb⟩ := hab
        subst ha hb
        rw [if_pos ⟨rfl, rfl⟩, if_pos ⟨rfl, by omega, by push_cast; omega, hp⟩]
      · rw [if_neg hab, ih1]
        by_cases hc : a = (i : Int) ∧ 0 ≤ b ∧ b < (p : Int) ∧ b ∈ blockMap
        · rw [if_pos hc, if_pos ⟨hc.1, hc.2.1, by push_cast; omega, hc.2.2.2⟩]
        · rw [if_neg hc, if_neg]
          rintro ⟨h1, h2, h3, h4⟩
          push_cast at h3
          by_cases hbp : b = (p : Int)
          · exact hab ⟨h1, hbp⟩
          · exact hc ⟨h1, h2, by omega, h4⟩
    · rw [if_neg hp]
      simp only
      rw [ih1]
      by_cases hc : a = (i : Int) ∧ 0 ≤ b ∧ b < (p : Int) ∧ b ∈ blockMap
      · rw [if_pos hc, if_pos ⟨hc.1, hc.2.1, by push_cast; omega, hc.2.2.2⟩]
      · rw [if_neg hc, if_neg]
        rintro ⟨h1, h2, h3, h4⟩
        push_cast at h3
        by_cases hbp : b = (p : Int)
        · subst hbp
          exact hp h4
        · exact hc ⟨h1, h2, by omega, h4⟩

/-- The addresses after the loop over the blocks of file `i`. -/
theorem visitFile_addr (i : Nat) (f : File) (bigBlockSize : Int) (blockMap : Finset Int)
    (t : BlockTotals) (a b : Int) :
    (visitFile i f bigBlockSize blockMap t).blockAddresses a b
      = if a = (i : Int) ∧ 0 ≤ b ∧ b < ceilDiv f.Size bigBlockSize ∧ b ∈ blockMap then
          some (fakeAddress i b (neededSize f bigBlockSize b))
        else t.blockAddresses a b := by
  unfold visitFile
  simp only
  rw [visit_prefix_addr]
  have hiff : ∀ b : Int, 0 ≤ b →
      (b < ((ceilDiv f.Size bigBlockSize).toNat : Int) ↔ b < ceilDiv f.Size bigBlockSize) := by
    intro b hb
    omega
  by_cases hc : a = (i : Int) ∧ 0 ≤ b ∧ b < ceilDiv f.Size bigBlockSize ∧ b ∈ blockMap
  · rw [if_pos hc, if_pos ⟨hc.1, hc.2.1, (hiff b hc.2.1).2 hc.2.2.1, hc.2.2.2⟩]
  · rw [if_neg hc, if_neg]
    rintro ⟨h1, h2, h3, h4⟩
    exact hc ⟨h1, h2, (hiff b h2).1 h3, h4⟩

/-- The loop over the files succeeds when every position has a target file, sets the
address of every required block among the blocks of its file, and leaves the keys
of earlier files alone. -/
theorem assignFrom_addr (targetContainer : Container) (bigBlockSize : Int) :
    ∀ (req : List (Finset Int)) (k : Nat) (t : BlockTotals),
      k + req.length ≤ targetContainer.Files.length →
      ∃ t1, assignFrom targetContainer bigBlockSize k req t = some t1
        ∧ (∀ (i : Nat) (f : File) (m : Finset Int) (b : Int),
            targetContainer.Files[k + i]? = some f → req[i]? = some m →
            0 ≤ b → b < ceilDiv f.Size bigBlockSize → b ∈ m →
            t1.blockAddresses ((k + i : Nat) : Int) b
              = some (fakeAddress (k + i) b (neededSize f bigBlockSize b)))
        ∧ (∀ a b : Int, a < (k : Int) → t1.blockAddresses a b = t.blockAddresses a b) := by
  intro req
  induction req with
  | nil =>
    intro k t _
    refine ⟨t, rfl, ?_, fun _ _ _ => rfl⟩
    intro i f m b _ hm
    simp at hm
  | cons m0 rest ih =>
    intro k t hk
    simp only [List.length_cons] at hk
    have hlt : k < targetContainer.Files.length := by omega
    have hf0 : targetContainer.Files[k]? = some targetContainer.Files[k] :=
      List.getElem?_eq_getElem hlt
    obtain ⟨t1, hrun, hset, hkeep⟩ :=
      ih (k + 1) (visitFile k targetContainer.Files[k] bigBlockSize m0 t) (by omega)
    refine ⟨t1, ?_, ?_, ?_⟩
    · simp only [assignFrom, hf0]
      exact hrun
    · intro i f m b hf hm hb0 hb1 hbm
      cases i with
      | zero =>
        simp only [Nat.add_zero] at hf ⊢
        rw [hf0] at hf
        cases hf
        simp only [List.getElem?_cons_zero, Option.some.injEq] at hm
        subst hm
        rw [hkeep _ _ (by push_cast; omega), visitFile_addr, if_pos ⟨rfl, hb0, hb1, hbm⟩]
      | succ i =>
        simp only [List.getElem?_cons_succ] at hm
        have := hset i f m b (by rw [show k + 1 + i = k + (i + 1) by omega]; exact hf) hm
          hb0 hb1 hbm
        rw [show k + 1 + i = k + (i + 1) by omega] at this
        exact this
    · intro a b ha
      rw [hkeep a b (by push_cast; omega), visitFile_addr, if_neg]
      rintro ⟨h, -⟩
      omega

/-! ## The number of sets never changes -/

theorem doBlockRange_length (targetContainer : Container) (blockSize bigBlockSize : Int)
    (sourceFile : File) (rop : SyncOp) (st st1 : Stats) (loc loc1 : FileScan)
    (h : doBlockRange targetContainer blockSize bigBlockSize sourceFile rop st loc
      = Except.ok (st1, loc1)) :
    st1.requiredOldBlocks.length = st.requiredOldBlocks.length := by
  unfold doBlockRange at h
  dsimp only at h
  split at h
  · cases h
  · split_ifs at h
    · cases h; rfl
    · split at h
      · cases h
      · cases h
        simp
    · cases h; rfl

theorem scanOps_length (targetContainer : Container) (blockSize bigBlockSize : Int)
    (sourceFile : File) :
    ∀ (wire : List Message) (st : Stats) (loc : FileScan) (st1 : Stats) (w : List Message),
      scanOps targetContainer blockSize bigBlockSize sourceFile wire st loc = Except.ok (st1, w) →
      st1.requiredOldBlocks.length = st.requiredOldBlocks.length := by
  intro wire
  induction wire with
  | nil =>
    intro st loc st1 w h
    unfold scanOps at h
    cases h
  | cons m rest ih =>
    intro st loc st1 w h
    cases m with
    | header sh =>
      unfold scanOps at h
      cases h
    | op rop =>
      unfold scanOps at h
      split at h
      · split at h
        · cases h
        · rename_i st2 loc2 hb
          rw [ih _ _ _ _ h, doBlockRange_length _ _ _ _ _ _ _ _ _ hb]
      · rw [ih _ _ _ _ h]
        rfl
      · cases h
        rfl
      · exact ih _ _ _ _ h

theorem scanFiles_length (targetContainer : Container) (blockSize bigBlockSize : Int) :
    ∀ (files : List File) (k : Nat) (st : Stats) (wire : List Message) (st1 : Stats)
      (w : List Message),
      scanFiles targetContainer blockSize bigBlockSize k files st wire = Except.ok (st1, w) →
      st1.requiredOldBlocks.length = st.requiredOldBlocks.length := by
  intro files
  induction files with
  | nil =>
    intro k st wire st1 w h
    unfold scanFiles at h
    cases h
    rfl
  | cons f fs ih =>
    intro k st wire st1 w h
    unfold scanFiles at h
    split at h
    · cases h
    · split_ifs at h
      split at h
      · cases h
      · rename_i st2 w2 hops
        rw [ih _ _ _ _ _ h, scanOps_length _ _ _ _ _ _ _ _ _ hops]

/-- After the pre-pass there is one set per target file. -/
theorem prePass_length (targetContainer sourceContainer : Container)
    (blockSize bigBlockSize : Int) (wire : List Message) (st : Stats) (w : List Message)
    (h : prePass targetContainer sourceContainer blockSize bigBlockSize wire = Except.ok (st, w)) :
    st.requiredOldBlocks.length = targetContainer.Files.length := by
  unfold prePass at h
  rw [scanFiles_length _ _ _ _ _ _ _ _ _ h]
  simp [initStats]

/-! ## C6 -/

set_option maxRecDepth 100000 in
/-- C6, the counterexample, in two runs. First, a target file of 10000 bytes and
fetch blocks of 65536 bytes: the moved range of block index 1 is accepted by the
pre-pass, which puts fetch block 1 into `requiredOldBlocks[0]`; the file has one
fetch block, and the address loop sets no address for block 1. Second, a target file
of `2^53 + 1` bytes and fetch blocks of `2^53` bytes: the pre-pass puts fetch block 1
into `requiredOldBlocks[0]`, and `1 < ⌈f.Size / B⌉ = 2`; the loop bound, computed in
`float64`, is 1, and the address loop sets no address for block 1. -/
theorem prePass_address_counterexample :
    prePass ⟨[⟨"a.bin", 10000⟩]⟩ ⟨[⟨"b.bin", 10000⟩]⟩ 65536 65536
        [Message.header ⟨0⟩,
         Message.op ⟨SyncOpType.BLOCK_RANGE, 0, 1, 1, []⟩,
         Message.op ⟨SyncOpType.HEY_YOU_DID_IT, 0, 0, 0, []⟩]
      = Except.ok
          ({ numDatas := 0, numBlockRanges := 1, unchangedBytes := 0, movedBytes := 10000,
             freshBytes := 0, requiredOldBlocks := [{1}] }, [])
      ∧ (1 : Int) ∈ ({1} : Finset Int)
      ∧ (assignAddresses ⟨[⟨"a.bin", 10000⟩]⟩ 65536 [{1}]).map
          (fun t => t.blockAddresses 0 1) = some none
      ∧ prePass ⟨[⟨"a.bin", 9007199254740993⟩]⟩ ⟨[⟨"b.bin", 65537⟩]⟩ 65536 9007199254740992
          [Message.header ⟨0⟩,
           Message.op ⟨SyncOpType.BLOCK_RANGE, 0, 137438953472, 2, []⟩,
           Message.op ⟨SyncOpType.HEY_YOU_DID_IT, 0, 0, 0, []⟩]
        = Except.ok
            ({ numDatas := 0, numBlockRanges := 1, unchangedBytes := 0, movedBytes := 65537,
               freshBytes := 0, requiredOldBlocks := [{1}] }, [])
      ∧ (1 : Int) < ⌈((9007199254740993 : Int) : ℚ) / ((9007199254740992 : Int) : ℚ)⌉
      ∧ (assignAddresses ⟨[⟨"a.bin", 9007199254740993⟩]⟩ 9007199254740992 [{1}]).map
          (fun t => t.blockAddresses 0 1) = some none := by
  refine ⟨rfl, by decide, rfl, rfl, ?_, rfl⟩
  rw [← ceilExact_eq_ceil _ _ (by decide)]
  decide

/-- C6 as amended: after the pre-pass, with a fetch block size `0 < B < 2^53`, the
address loop succeeds, and for every target file `f` (at position `i`) of less than
`2^53` bytes and every fetch-block index `j` in `requiredOldBlocks[i]` that is one of
the blocks of the file (`0 ≤ j < ⌈f.Size / B⌉`), it sets an address for `(i, j)`; the
size in that address is `B` when `(j + 1) * B ≤ f.Size` and the remainder
`f.Size - j * B` otherwise (the last, short block). -/
theorem prePass_address (targetContainer sourceContainer : Container)
    (blockSize bigBlockSize : Int) (wire w : List Message) (st : Stats)
    (i : Nat) (f : File) (m : Finset Int) (j : Int)
    (hB : 0 < bigBlockSize) (hB2 : bigBlockSize < 9007199254740992)
    (hrun : prePass targetContainer sourceContainer blockSize bigBlockSize wire
      = Except.ok (st, w))
    (hf : targetContainer.Files[i]? = some f)
    (hS2 : f.Size < 9007199254740992)
    (hm : st.requiredOldBlocks[i]? = some m)
    (hj : j ∈ m) (hj0 : 0 ≤ j)
    (hj1 : j < ⌈(f.Size : ℚ) / (bigBlockSize : ℚ)⌉) :
    ∃ t, assignAddresses targetContainer bigBlockSize st.requiredOldBlocks = some t
      ∧ t.blockAddresses (i : Int) j
          = some (fakeAddress i j
              (if (j + 1) * bigBlockSize ≤ f.Size then bigBlockSize
               else f.Size - j * bigBlockSize)) := by
  rw [← ceilExact_eq_ceil _ _ hB] at hj1
  have hS : 0 ≤ f.Size := by
    have h1 := (lt_ceilExact_iff _ _ _ hB).1 hj1
    have : 0 ≤ j * bigBlockSize := mul_nonneg hj0 hB.le
    omega
  have hj2 : j < ceilDiv f.Size bigBlockSize := by
    rw [ceilDiv_exact f.Size bigBlockSize hS hS2 hB hB2]
    exact hj1
  have hlen := prePass_length _ _ _ _ _ _ _ hrun
  obtain ⟨t, ht, hset, -⟩ :=
    assignFrom_addr targetContainer bigBlockSize st.requiredOldBlocks 0 initTotals (by omega)
  refine ⟨t, ht, ?_⟩
  have := hset i f m j (by simpa using hf) hm hj0 hj2 hj
  simp only [Nat.zero_add] at this
  rw [this, neededSize_eq f bigBlockSize j hB hB2 hS2 hj0 hj1]

set_option maxRecDepth 100000 in
/-- C6 as amended, at the scenario of the spec with five fetch blocks of 1 MiB and a
moved range over fetch block 3: the address of block 3 carries the full size. -/
theorem prePass_address_witness :
    ∃ t, assignAddresses ⟨[⟨"a.bin", 5242880⟩]⟩ 1048576 [{3}] = some t
      ∧ t.blockAddresses 0 3 = some (fakeAddress 0 3 1048576) := by
  have h := prePass_address ⟨[⟨"a.bin", 5242880⟩]⟩ ⟨[⟨"b.bin", 1048576⟩]⟩ 65536 1048576
    [Message.header ⟨0⟩,
     Message.op ⟨SyncOpType.BLOCK_RANGE, 0, 48, 16, []⟩,
     Message.op ⟨SyncOpType.HEY_YOU_DID_IT, 0, 0, 0, []⟩] []
    { numDatas := 0, numBlockRanges := 1, unchangedBytes := 0, movedBytes := 1048576,
      freshBytes := 0, requiredOldBlocks := [{3}] }
    0 ⟨"a.bin", 5242880⟩ {3} 3 (by decide) (by decide) rfl rfl (by decide) rfl (by decide)
    (by decide)
    (by
      show (3 : Int) < ⌈((5242880 : Int) : ℚ) / ((1048576 : Int) : ℚ)⌉
      rw [← ceilExact_eq_ceil 5242880 1048576 (by decide)]
      decide)
  obtain ⟨t, ht, haddr⟩ := h
  refine ⟨t, ht, ?_⟩
  rw [show ((0 : Nat) : Int) = 0 from rfl] at haddr
  rw [haddr]
  rfl

/-- The address string of the block of the witness, as `fmt.Sprintf` prints it. -/
theorem fakeAddress_example :
    fakeAddress 0 3 1048576 = "shake128-32/fakehash-0-3/1048576" := by
  decide

/-! ## Lemmas on the totals of the address-assignment loop -/

/-- The totals after the first `p` rounds of the loop over the blocks of a file, when
no counter leaves the range of `int64`. -/
theorem visit_prefix_totals (i : Nat) (f : File) (bigBlockSize : Int) (blockMap : Finset Int)
    (hB : 0 < bigBlockSize) (hB2 : bigBlockSize < 9007199254740992)
    (hS : 0 ≤ f.Size) (hS2 : f.Size < 9007199254740992) :
    ∀ (p : Nat) (t : BlockTotals), (p : Int) ≤ ceilExact f.Size bigBlockSize →
      0 ≤ t.neededBlocks → t.neededBlocks ≤ t.totalBlocks →
      t.totalBlocks + f.Size < 9223372036854775808 →
      0 ≤ t.neededBlockSize → t.neededBlockSize + f.Size < 9223372036854775808 →
      ((List.range p).foldl
          (fun (acc : BlockTotals) (j : Nat) => visitBlock i f bigBlockSize blockMap acc (j : Int))
          t).totalBlocks = t.totalBlocks + (p : Int)
      ∧ t.neededBlocks ≤ ((List.range p).foldl
          (fun (acc : BlockTotals) (j : Nat) => visitBlock i f bigBlockSize blockMap acc (j : Int))
          t).neededBlocks
      ∧ ((List.range p).foldl
          (fun (acc : BlockTotals) (j : Nat) => visitBlock i f bigBlockSize blockMap acc (j : Int))
          t).neededBlocks ≤ t.neededBlocks + (p : Int)
      ∧ t.neededBlockSize ≤ ((List.range p).foldl
          (fun (acc : BlockTotals) (j : Nat) => visitBlock i f bigBlockSize blockMap acc (j : Int))
          t).neededBlockSize
      ∧ ((List.range p).foldl
          (fun (acc : BlockTotals) (j : Nat) => visitBlock i f bigBlockSize blockMap acc (j : Int))
          t).neededBlockSize ≤ t.neededBlockSize + min ((p : Int) * bigBlockSize) f.Size
      ∧ ((∀ j : Nat, j < p → (j : Int) ∈ blockMap) →
          ((List.range p).foldl
            (fun (acc : BlockTotals) (j : Nat) => visitBlock i f bigBlockSize blockMap acc (j : Int))
            t).neededBlockSize = t.neededBlockSize + min ((p : Int) * bigBlockSize) f.Size) := by
  intro p
  induction p with
  | zero =>
    intro t hp _ _ _ _ _
    simp [min_eq_left hS]
  | succ p ih =>
    intro t hp ht0 ht1 ht2 ht3 ht4
    push_cast at hp
    obtain ⟨h1, h2, h3, h4, h5, h6⟩ := ih t (by omega) ht0 ht1 ht2 ht3 ht4
    have hcs := ceilExact_le_self f.Size bigBlockSize hB hS
    have hns := neededSize_eq_min f bigBlockSize (p : Int) hB hB2 hS2 (by omega) (by omega)
    have hmono : min ((p : Int) * bigBlockSize) f.Size
        ≤ min (((p : Int) + 1) * bigBlockSize) f.Size := by
      apply min_le_min_right
      nlinarith
    have hmin : min (((p : Int) + 1) * bigBlockSize) f.Size ≤ f.Size := min_le_right _ _
    rw [List.range_succ, List.foldl_append]
    simp only [List.foldl_cons, List.foldl_nil]
    generalize List.foldl _ t (List.range p) = acc at h1 h2 h3 h4 h5 h6 ⊢
    have w1 : wrap64 (acc.totalBlocks + 1) = acc.totalBlocks + 1 :=
      wrap64_eq _ (by omega) (by omega)
    have w2 : wrap64 (acc.neededBlocks + 1) = acc.neededBlocks + 1 :=
      wrap64_eq _ (by omega) (by omega)
    have w3 : wrap64 (acc.neededBlockSize + neededSize f bigBlockSize (p : Int))
        = acc.neededBlockSize + neededSize f bigBlockSize (p : Int) :=
      wrap64_eq _ (by omega) (by omega)
    unfold visitBlock
    push_cast
    by_cases hmem : (p : Int) ∈ blockMap
    · rw [if_pos hmem]
      simp only
      rw [w1, w2, w3]
      refine ⟨by omega, by omega, by omega, by omega, by omega, ?_⟩
      intro hall
      have := h6 (fun j hj => hall j (by omega))
      omega
    · rw [if_neg hmem]
      simp only
      rw [w1]
      refine ⟨by omega, by omega, by omega, by omega, by omega, ?_⟩
      intro hall
      exact absurd (hall p (by omega)) hmem

/-- The totals after the loop over the blocks of one file below `2^53` bytes. -/
theorem visitFile_totals (i : Nat) (f : File) (bigBlockSize : Int) (blockMap : Finset Int)
    (t : BlockTotals) (hB : 0 < bigBlockSize) (hB2 : bigBlockSize < 9007199254740992)
    (hS : 0 ≤ f.Size) (hS2 : f.Size < 9007199254740992)
    (ht0 : 0 ≤ t.neededBlocks) (ht1 : t.neededBlocks ≤ t.totalBlocks)
    (ht2 : t.totalBlocks + f.Size < 9223372036854775808)
    (ht3 : 0 ≤ t.neededBlockSize)
    (ht4 : t.neededBlockSize + f.Size < 9223372036854775808) :
    t.neededBlocks ≤ (visitFile i f bigBlockSize blockMap t).neededBlocks
      ∧ (visitFile i f bigBlockSize blockMap t).neededBlocks - t.neededBlocks
        ≤ (visitFile i f bigBlockSize blockMap t).totalBlocks - t.totalBlocks
      ∧ (visitFile i f bigBlockSize blockMap t).totalBlocks ≤ t.totalBlocks + f.Size
      ∧ t.neededBlockSize ≤ (visitFile i f bigBlockSize blockMap t).neededBlockSize
      ∧ (visitFile i f bigBlockSize blockMap t).neededBlockSize ≤ t.neededBlockSize + f.Size
      ∧ ((∀ j : Int, 0 ≤ j → j < ceilExact f.Size bigBlockSize → j ∈ blockMap) →
          (visitFile i f bigBlockSize blockMap t).neededBlockSize = t.neededBlockSize + f.Size) := by
  have hn := ceilExact_nonneg f.Size bigBlockSize hB hS
  have hcs := ceilExact_le_self f.Size bigBlockSize hB hS
  have hcast : (((ceilExact f.Size bigBlockSize).toNat : Nat) : Int)
      = ceilExact f.Size bigBlockSize :=
    Int.toNat_of_nonneg hn
  obtain ⟨h1, h2, h3, h4, h5, h6⟩ :=
    visit_prefix_totals i f bigBlockSize blockMap hB hB2 hS hS2
      (ceilExact f.Size bigBlockSize).toNat t (by omega) ht0 ht1 ht2 ht3 ht4
  have hmin : min (((ceilExact f.Size bigBlockSize).toNat : Int) * bigBlockSize) f.Size
      = f.Size := by
    rw [hcast]
    exact min_eq_right (le_ceilExact_mul f.Size bigBlockSize hB)
  rw [hmin] at h5 h6
  unfold visitFile
  simp only
  rw [ceilDiv_exact f.Size bigBlockSize hS hS2 hB hB2]
  refine ⟨h2, by omega, by omega, h4, h5, ?_⟩
  intro hall
  apply h6
  intro j hj
  exact hall j (by omega) (by omega)

/-- The totals of the loop over the files, when the sizes are below `2^53` and their
sum is below `2^63`. -/
theorem assignFrom_totals (targetContainer : Container) (bigBlockSize : Int)
    (hB : 0 < bigBlockSize) (hB2 : bigBlockSize < 9007199254740992)
    (hS : ∀ f ∈ targetContainer.Files, 0 ≤ f.Size ∧ f.Size < 9007199254740992) :
    ∀ (req : List (Finset Int)) (k : Nat) (t : BlockTotals),
      k + req.length ≤ targetContainer.Files.length →
      0 ≤ t.neededBlocks → t.neededBlocks ≤ t.totalBlocks →
      t.totalBlocks + (((targetContainer.Files.drop k).take req.length).map File.Size).sum
        < 9223372036854775808 →
      0 ≤ t.neededBlockSize →
      t.neededBlockSize + (((targetContainer.Files.drop k).take req.length).map File.Size).sum
        < 9223372036854775808 →
      ∃ t1, assignFrom targetContainer bigBlockSize k req t = some t1
        ∧ t.neededBlocks ≤ t1.neededBlocks
        ∧ t1.neededBlocks - t.neededBlocks ≤ t1.totalBlocks - t.totalBlocks
        ∧ t.neededBlockSize ≤ t1.neededBlockSize
        ∧ t1.neededBlockSize ≤ t.neededBlockSize
            + (((targetContainer.Files.drop k).take req.length).map File.Size).sum
        ∧ ((∀ (i : Nat) (f : File) (m : Finset Int),
              targetContainer.Files[k + i]? = some f → req[i]? = some m →
              ∀ j : Int, 0 ≤ j → j < ceilExact f.Size bigBlockSize → j ∈ m) →
            t1.neededBlockSize = t.neededBlockSize
              + (((targetContainer.Files.drop k).take req.length).map File.Size).sum) := by
  intro req
  induction req with
  | nil =>
    intro k t _ _ _ _ _ _
    exact ⟨t, rfl, le_refl _, by simp, le_refl _, by simp, fun _ => by simp⟩
  | cons m0 rest ih =>
    intro k t hk ht0 ht1 ht2 ht3 ht4
    simp only [List.length_cons] at hk ht2 ht4
    have hlt : k < targetContainer.Files.length := by omega
    have hf0 : targetContainer.Files[k]? = some targetContainer.Files[k] :=
      List.getElem?_eq_getElem hlt
    obtain ⟨hsz, hsz2⟩ := hS _ (List.getElem_mem (l := targetContainer.Files) hlt)
    have hsum : (((targetContainer.Files.drop k).take (rest.length + 1)).map File.Size).sum
        = (targetContainer.Files[k]).Size
          + (((targetContainer.Files.drop (k + 1)).take rest.length).map File.Size).sum := by
      rw [List.drop_eq_getElem_cons hlt]
      simp only [List.take_succ_cons, List.map_cons, List.sum_cons]
    rw [hsum] at ht2 ht4
    have hrest : 0 ≤ (((targetContainer.Files.drop (k + 1)).take rest.length).map File.Size).sum := by
      apply List.sum_nonneg
      intro x hx
      obtain ⟨g, hg, rfl⟩ := List.mem_map.1 hx
      exact (hS g (List.mem_of_mem_drop (List.mem_of_mem_take hg))).1
    obtain ⟨v0, v1, v2, v3, v4, v5⟩ :=
      visitFile_totals k targetContainer.Files[k] bigBlockSize m0 t hB hB2 hsz hsz2
        ht0 ht1 (by omega) ht3 (by omega)
    obtain ⟨t1, hrun, a0, a1, a2, a3, a4⟩ :=
      ih (k + 1) (visitFile k targetContainer.Files[k] bigBlockSize m0 t) (by omega)
        (by omega) (by omega) (by omega) (by omega) (by omega)
    refine ⟨t1, ?_, by omega, by omega, by omega, ?_, ?_⟩
    · simp only [assignFrom, hf0]
      exact hrun
    · simp only [List.length_cons]
      rw [hsum]
      omega
    · intro hall
      simp only [List.length_cons]
      rw [hsum]
      have e1 := v5 (fun j hj0 hj1 => hall 0 _ m0 hf0 (by simp) j hj0 hj1)
      have e2 := a4 (fun i f m hf hm j hj0 hj1 =>
        hall (i + 1) f m (by rw [show k + (i + 1) = k + 1 + i by omega]; exact hf)
          (by simpa using hm) j hj0 hj1)
      omega

/-! ## C9 -/

set_option maxRecDepth 100000 in
/-- C9, the counterexample, in three runs of the address loop on one-file containers
with every fetch block required. With `B = 2^55 + 4` and a file of `3 * B - 1` bytes
the `float64` quotient is above 3, the loop visits four blocks, and
`neededBlockSize = 4 * B - 2`, more than the size of the file. With `B = 2^53` and a
file of `2^53 + 1` bytes (two fetch blocks) the `float64` quotient is 1, the loop
visits block 0 only, and `neededBlockSize = 2^53`, less than the size of the file.
With `B = 2^61` and three files of `2^62` bytes the sum leaves the range of `int64`
and `neededBlockSize` ends at `-2^62`. -/
theorem assignAddresses_totals_counterexample :
    (assignAddresses ⟨[⟨"a.bin", 108086391056891915⟩]⟩ 36028797018963972 [{0, 1, 2, 3}]).map
        (fun t => (t.totalBlocks, t.neededBlocks, t.neededBlockSize))
      = some (4, 4, 144115188075855886)
      ∧ (108086391056891915 : Int) < 144115188075855886
      ∧ (assignAddresses ⟨[⟨"a.bin", 9007199254740993⟩]⟩ 9007199254740992 [{0, 1}]).map
          (fun t => (t.totalBlocks, t.neededBlocks, t.neededBlockSize))
        = some (1, 1, 9007199254740992)
      ∧ ceilExact 9007199254740993 9007199254740992 = 2
      ∧ (assignAddresses
            ⟨[⟨"a.bin", 4611686018427387904⟩, ⟨"b.bin", 4611686018427387904⟩,
              ⟨"c.bin", 4611686018427387904⟩]⟩
            2305843009213693952 [{0, 1}, {0, 1}, {0, 1}]).map
          (fun t => (t.totalBlocks, t.neededBlocks, t.neededBlockSize))
        = some (6, 6, -4611686018427387904) := by
  refine ⟨rfl, by decide, rfl, by decide, rfl⟩

/-- C9 as amended: for a fetch block size `0 < B < 2^53`, a target container whose
file sizes are non-negative and below `2^53` with a sum below `2^63`, and any content
of `requiredOldBlocks` (one set per target file), the address loop succeeds with
`neededBlocks ≤ totalBlocks` and `neededBlockSize` at most the sum of the sizes of
the target files; `neededBlockSize` is that sum when every fetch block of every file
is required. -/
theorem assignAddresses_totals (targetContainer : Container) (bigBlockSize : Int)
    (requiredOldBlocks : List (Finset Int))
    (hB : 0 < bigBlockSize) (hB2 : bigBlockSize < 9007199254740992)
    (hS : ∀ f ∈ targetContainer.Files, 0 ≤ f.Size ∧ f.Size < 9007199254740992)
    (hsum : (targetContainer.Files.map File.Size).sum < 9223372036854775808)
    (hlen : requiredOldBlocks.length = targetContainer.Files.length) :
    ∃ t, assignAddresses targetContainer bigBlockSize requiredOldBlocks = some t
      ∧ t.neededBlocks ≤ t.totalBlocks
      ∧ 0 ≤ t.neededBlockSize
      ∧ t.neededBlockSize ≤ (targetContainer.Files.map File.Size).sum
      ∧ ((∀ (i : Nat) (f : File) (m : Finset Int),
            targetContainer.Files[i]? = some f → requiredOldBlocks[i]? = some m →
            ∀ j : Int, 0 ≤ j → j < ⌈(f.Size : ℚ) / (bigBlockSize : ℚ)⌉ → j ∈ m) →
          t.neededBlockSize = (targetContainer.Files.map File.Size).sum) := by
  have hsum0 : (((targetContainer.Files.drop 0).take requiredOldBlocks.length).map File.Size).sum
      = (targetContainer.Files.map File.Size).sum := by
    rw [hlen]
    simp
  have e1 : initTotals.neededBlocks = 0 := rfl
  have e2 : initTotals.totalBlocks = 0 := rfl
  have e3 : initTotals.neededBlockSize = 0 := rfl
  obtain ⟨t, ht, h0, h1, h2, h3, h4⟩ :=
    assignFrom_totals targetContainer bigBlockSize hB hB2 hS requiredOldBlocks 0 initTotals
      (by omega) (by omega) (by omega) (by rw [hsum0]; omega) (by omega)
      (by rw [hsum0]; omega)
  rw [hsum0] at h3 h4
  refine ⟨t, ht, by omega, by omega, by omega, ?_⟩
  intro hall
  rw [h4, e3, zero_add]
  intro i f m hf hm j hj0 hj1
  rw [ceilExact_eq_ceil _ _ hB] at hj1
  exact hall i f m (by simpa using hf) hm j hj0 hj1

/-- C9 as amended, at a container of two files (10000 and 200000 bytes) with blocks
of 65536 bytes, where block 0 of the first file and blocks 1 and 3 of the second are
required. -/
theorem assignAddresses_totals_witness :
    ∃ t, assignAddresses ⟨[⟨"a.bin", 10000⟩, ⟨"b.bin", 200000⟩]⟩ 65536 [{0}, {1, 3}] = some t
      ∧ t.neededBlocks ≤ t.totalBlocks
      ∧ t.neededBlockSize ≤ 210000 := by
  obtain ⟨t, ht, h1, -, h3, -⟩ :=
    assignAddresses_totals ⟨[⟨"a.bin", 10000⟩, ⟨"b.bin", 200000⟩]⟩ 65536 [{0}, {1, 3}]
      (by decide) (by decide) (by decide) (by decide) (by decide)
  exact ⟨t, ht, h1, h3⟩

set_option maxRecDepth 100000 in
/-- The totals of that run: five blocks, three needed, two of them short. -/
theorem assignAddresses_example :
    (assignAddresses ⟨[⟨"a.bin", 10000⟩, ⟨"b.bin", 200000⟩]⟩ 65536 [{0}, {1, 3}]).map
        (fun t => (t.totalBlocks, t.partialBlocks, t.neededBlocks, t.neededBlockSize))
      = some (5, 2, 3, 10000 + 65536 + 3392) := by
  rfl

/-! ## The counters stay in the range of int64 -/

theorem wrap64_add_swap (a x s : Int) :
    wrap64 (wrap64 (a + x) + s) = wrap64 (wrap64 (a + s) + x) := by
  unfold wrap64
  omega

theorem wrap64_add_comm (a b : Int) : wrap64 (a + b) = wrap64 (b + a) := by
  rw [add_comm]

theorem wrap64_add_left_comm (a b c : Int) :
    wrap64 (a + wrap64 (b + c)) = wrap64 (b + wrap64 (a + c)) := by
  unfold wrap64
  omega

theorem initStats_inRange (targetContainer : Container) : (initStats targetContainer).inRange := by
  refine ⟨rfl, rfl, rfl, rfl, rfl⟩

theorem merge_inRange (s x : Stats) : (s.merge x).inRange := by
  unfold Stats.inRange Stats.merge
  simp only [wrap64_idem, and_self]

theorem doBlockRange_inRange (targetContainer : Container) (blockSize bigBlockSize : Int)
    (sourceFile : File) (rop : SyncOp) (st st1 : Stats) (loc loc1 : FileScan)
    (hst : st.inRange)
    (h : doBlockRange targetContainer blockSize bigBlockSize sourceFile rop st loc
      = Except.ok (st1, loc1)) :
    st1.inRange := by
  obtain ⟨r1, r2, r3, r4, r5⟩ := hst
  unfold doBlockRange at h
  dsimp only at h
  split at h
  · cases h
  · split_ifs at h
    · cases h
      exact ⟨r1, wrap64_idem _, wrap64_idem _, r4, r5⟩
    · split at h
      · cases h
      · cases h
        exact ⟨r1, wrap64_idem _, r3, wrap64_idem _, r5⟩
    · cases h
      exact ⟨r1, wrap64_idem _, r3, wrap64_idem _, r5⟩

theorem doData_inRange (rop : SyncOp) (st : Stats) (loc : FileScan) (hst : st.inRange) :
    (doData rop st loc).1.inRange := by
  obtain ⟨r1, r2, r3, r4, r5⟩ := hst
  exact ⟨wrap64_idem _, r2, r3, r4, wrap64_idem _⟩

theorem scanOps_inRange (targetContainer : Container) (blockSize bigBlockSize : Int)
    (sourceFile : File) :
    ∀ (wire : List Message) (st : Stats) (loc : FileScan) (st1 : Stats) (w : List Message),
      st.inRange →
      scanOps targetContainer blockSize bigBlockSize sourceFile wire st loc = Except.ok (st1, w) →
      st1.inRange := by
  intro wire
  induction wire with
  | nil =>
    intro st loc st1 w _ h
    unfold scanOps at h
    cases h
  | cons m rest ih =>
    intro st loc st1 w hst h
    cases m with
    | header sh =>
      unfold scanOps at h
      cases h
    | op rop =>
      unfold scanOps at h
      split at h
      · split at h
        · cases h
        · rename_i st2 loc2 hb
          exact ih _ _ _ _ (doBlockRange_inRange _ _ _ _ _ _ _ _ _ hst hb) h
      · exact ih _ _ _ _ (doData_inRange rop st loc hst) h
      · cases h
        exact hst
      · exact ih _ _ _ _ hst h

theorem scanFiles_inRange (targetContainer : Container) (blockSize bigBlockSize : Int) :
    ∀ (files : List File) (k : Nat) (st : Stats) (wire : List Message) (st1 : Stats)
      (w : List Message), st.inRange →
      scanFiles targetContainer blockSize bigBlockSize k files st wire = Except.ok (st1, w) →
      st1.inRange := by
  intro files
  induction files with
  | nil =>
    intro k st wire st1 w hst h
    unfold scanFiles at h
    cases h
    exact hst
  | cons f fs ih =>
    intro k st wire st1 w hst h
    unfold scanFiles at h
    split at h
    · cases h
    · split_ifs at h
      split at h
      · cases h
      · rename_i st2 w2 hops
        exact ih _ _ _ _ _ (scanOps_inRange _ _ _ _ _ _ _ _ _ hst hops) h

/-! ## Adding a state to a run -/

theorem merge_comm (s x : Stats) : s.merge x = x.merge s := by
  unfold Stats.merge
  rw [List.zipWith_comm_of_comm _ (fun a b => Finset.union_comm a b)]
  simp only [Stats.mk.injEq, and_true]
  refine ⟨wrap64_add_comm _ _, wrap64_add_comm _ _, wrap64_add_comm _ _, wrap64_add_comm _ _,
    wrap64_add_comm _ _⟩

theorem merge_sets_length (s x : Stats)
    (h : x.requiredOldBlocks.length = s.requiredOldBlocks.length) :
    (s.merge x).requiredOldBlocks.length = s.requiredOldBlocks.length := by
  simp [Stats.merge, h]

/-- The state before the first file is neutral for `merge`. -/
theorem merge_initStats (targetContainer : Container) (s : Stats)
    (h : s.requiredOldBlocks.length = targetContainer.Files.length) (hs : s.inRange) :
    (initStats targetContainer).merge s = s := by
  have hz : List.zipWith (fun (a b : Finset Int) => a ∪ b)
      (List.replicate targetContainer.Files.length ∅) s.requiredOldBlocks
      = s.requiredOldBlocks := by
    apply List.ext_getElem?
    intro n
    rw [List.getElem?_zipWith, List.getElem?_replicate]
    by_cases hn : n < targetContainer.Files.length
    · rw [if_pos hn]
      have : s.requiredOldBlocks[n]? = some s.requiredOldBlocks[n] :=
        List.getElem?_eq_getElem (by omega)
      rw [this]
      simp
    · rw [if_neg hn]
      have : s.requiredOldBlocks[n]? = none := List.getElem?_eq_none (by omega)
      rw [this]
  obtain ⟨r1, r2, r3, r4, r5⟩ := hs
  cases s
  simp only at r1 r2 r3 r4 r5
  simp only [Stats.merge, initStats, zero_add, Stats.mk.injEq]
  exact ⟨r1, r2, r3, r4, r5, hz⟩

/-- Adding a state to itself leaves the sets as they are. -/
theorem merge_self_sets (s : Stats) :
    (s.merge s).requiredOldBlocks = s.requiredOldBlocks := by
  unfold Stats.merge
  simp only
  generalize s.requiredOldBlocks = l
  induction l with
  | nil => rfl
  | cons a l ih => simp [List.zipWith, ih]

theorem index?_zipWith_union (a b : List (Finset Int)) (i : Int) :
    index? (List.zipWith (fun (u v : Finset Int) => u ∪ v) a b) i
      = match index? a i, index? b i with
        | some u, some v => some (u ∪ v)
        | _, _ => none := by
  unfold index?
  split_ifs with h0
  · rw [List.getElem?_zipWith]
    rcases a[i.toNat]? with _ | u <;> rcases b[i.toNat]? with _ | v <;> rfl
  · rfl

theorem index?_none_of_length {α β : Type} (a : List α) (b : List β) (i : Int)
    (h : b.length = a.length) (ha : index? a i = none) : index? b i = none := by
  unfold index? at ha ⊢
  split_ifs at ha ⊢ with h0
  · rw [List.getElem?_eq_none_iff] at ha ⊢
    omega
  · rfl

theorem zipWith_union_set (a b : List (Finset Int)) (n : Nat) (u v : Finset Int)
    (hb : b[n]? = some v) :
    (List.zipWith (fun (u v : Finset Int) => u ∪ v) a b).set n (u ∪ v)
      = List.zipWith (fun (u v : Finset Int) => u ∪ v) (a.set n u) b := by
  apply List.ext_getElem?
  intro k
  rw [List.getElem?_set, List.getElem?_zipWith, List.getElem?_zipWith, List.getElem?_set]
  by_cases hk : n = k
  · subst hk
    rw [if_pos rfl, if_pos rfl, hb]
    simp only [List.length_zipWith]
    have hbn : n < b.length := (List.getElem?_eq_some.1 hb).1
    by_cases han : n < a.length
    · rw [if_pos (by simp; omega), if_pos han]
    · rw [if_neg (by simp; omega), if_neg han]
  · rw [if_neg hk, if_neg hk]

/-- The `BLOCK_RANGE` case on a state with `x` added is the case on the state, with
`x` added to the outcome. -/
theorem doBlockRange_frame (targetContainer : Container) (blockSize bigBlockSize : Int)
    (sourceFile : File) (rop : SyncOp) (st : Stats) (loc : FileScan) (x : Stats)
    (hlen : x.requiredOldBlocks.length = st.requiredOldBlocks.length) :
    doBlockRange targetContainer blockSize bigBlockSize sourceFile rop (st.merge x) loc
      = frameOut x
          (doBlockRange targetContainer blockSize bigBlockSize sourceFile rop st loc) := by
  unfold doBlockRange
  dsimp only
  rcases hfile : index? targetContainer.Files rop.FileIndex with _ | targetFile
  · rfl
  · dsimp only
    split_ifs with hz hu hlt
    · rfl
    · simp only [frameOut, Stats.merge, Except.ok.injEq, Prod.mk.injEq, Stats.mk.injEq,
        and_true, true_and]
      exact ⟨wrap64_add_swap _ _ _, wrap64_add_swap _ _ _⟩
    · have hidx := index?_zipWith_union st.requiredOldBlocks x.requiredOldBlocks
        rop.FileIndex
      rcases hs : index? st.requiredOldBlocks rop.FileIndex with _ | bm
      · rw [hs] at hidx
        have hm : index? (st.merge x).requiredOldBlocks rop.FileIndex = none := hidx
        rw [hm]
        simp only [frameOut, Stats.merge, Except.error.injEq, Prod.mk.injEq, Stats.mk.injEq,
          and_true, true_and]
        exact wrap64_add_swap _ _ _
      · obtain ⟨h0, h1, _⟩ := index?_eq_some hs
        obtain ⟨xm, hx⟩ := index?_of_lt x.requiredOldBlocks rop.FileIndex h0 (by omega)
        rw [hs, hx] at hidx
        have hm : index? (st.merge x).requiredOldBlocks rop.FileIndex = some (bm ∪ xm) := hidx
        rw [hm]
        have hxn := (index?_eq_some hx).2.2
        have hset := zipWith_union_set st.requiredOldBlocks x.requiredOldBlocks
          rop.FileIndex.toNat
          (markBlocks bm (floorDiv (wrap64 (rop.BlockIndex * blockSize)) bigBlockSize)
            (ceilDiv
              (wrap64 (wrap64 (rop.BlockIndex * blockSize) + rangeSize blockSize targetFile rop))
              bigBlockSize)) xm hxn
        simp only [frameOut, Stats.merge, Except.ok.injEq, Prod.mk.injEq, Stats.mk.injEq,
          and_true, true_and]
        refine ⟨wrap64_add_swap _ _ _, wrap64_add_swap _ _ _, ?_⟩
        rw [← hset, markBlocks_eq, markBlocks_eq, Finset.union_right_comm]
    · simp only [frameOut, Stats.merge, Except.ok.injEq, Prod.mk.injEq, Stats.mk.injEq,
        and_true, true_and]
      exact ⟨wrap64_add_swap _ _ _, wrap64_add_swap _ _ _⟩

theorem frameOut_error {α : Type} (x : Stats) (o : Outcome (Stats × α)) (e : Failure × Stats)
    (h : o = Except.error e) : frameOut x o = Except.error (e.1, e.2.merge x) := by
  subst h
  rfl

theorem frameOut_ok {α : Type} (x : Stats) (o : Outcome (Stats × α)) (s : Stats) (a : α)
    (h : o = Except.ok (s, a)) : frameOut x o = Except.ok (s.merge x, a) := by
  subst h
  rfl

theorem doData_frame (rop : SyncOp) (st : Stats) (loc : FileScan) (x : Stats) :
    doData rop (st.merge x) loc = ((doData rop st loc).1.merge x, (doData rop st loc).2) := by
  simp only [doData, Stats.merge, Prod.mk.injEq, Stats.mk.injEq, and_true, true_and]
  exact ⟨wrap64_add_swap _ _ _, wrap64_add_swap _ _ _⟩

/-- The closure on a state with `x` added is the closure on the state, with `x`
added to the outcome. -/
theorem scanOps_frame (targetContainer : Container) (blockSize bigBlockSize : Int)
    (sourceFile : File) (x : Stats) :
    ∀ (wire : List Message) (st : Stats) (loc : FileScan),
      x.requiredOldBlocks.length = st.requiredOldBlocks.length →
      scanOps targetContainer blockSize bigBlockSize sourceFile wire (st.merge x) loc
        = frameOut x (scanOps targetContainer blockSize bigBlockSize sourceFile wire st loc) := by
  intro wire
  induction wire with
  | nil =>
    intro st loc _
    rfl
  | cons m rest ih =>
    intro st loc hlen
    cases m with
    | header sh => rfl
    | op rop =>
      rcases hty : rop.OpType
      · -- BLOCK_RANGE
        have hf := doBlockRange_frame targetContainer blockSize bigBlockSize sourceFile rop
          st loc x hlen
        rcases hb : doBlockRange targetContainer blockSize bigBlockSize sourceFile rop st loc
          with e | ⟨st1, loc1⟩
        · rw [frameOut_error x _ e hb] at hf
          simp only [scanOps, hty, hb, hf]
          rfl
        · rw [frameOut_ok x _ st1 loc1 hb] at hf
          simp only [scanOps, hty, hb, hf]
          exact ih st1 loc1 (by rw [doBlockRange_length _ _ _ _ _ _ _ _ _ hb]; exact hlen)
      · -- DATA
        simp only [scanOps, hty]
        rw [doData_frame]
        exact ih _ _ hlen
      · -- HEY_YOU_DID_IT
        simp only [scanOps, hty]
        rfl
      · -- any other tag
        simp only [scanOps, hty]
        exact ih st loc hlen

/-- The loop over the source files on a state with `x` added. -/
theorem scanFiles_frame (targetContainer : Container) (blockSize bigBlockSize : Int)
    (x : Stats) :
    ∀ (files : List File) (k : Nat) (st : Stats) (wire : List Message),
      x.requiredOldBlocks.length = st.requiredOldBlocks.length →
      scanFiles targetContainer blockSize bigBlockSize k files (st.merge x) wire
        = frameOut x (scanFiles targetContainer blockSize bigBlockSize k files st wire) := by
  intro files
  induction files with
  | nil =>
    intro k st wire _
    rfl
  | cons f fs ih =>
    intro k st wire hlen
    rcases hrd : readSyncHeader wire with _ | ⟨sh, w1⟩
    · simp only [scanFiles, hrd]
      rfl
    · by_cases hk : sh.FileIndex ≠ (k : Int)
      · simp only [scanFiles, hrd, if_pos hk]
        rfl
      · have hf := scanOps_frame targetContainer blockSize bigBlockSize f x w1 st initScan hlen
        rcases hops : scanOps targetContainer blockSize bigBlockSize f w1 st initScan
          with e | ⟨st1, w2⟩
        · rw [frameOut_error x _ e hops] at hf
          simp only [scanFiles, hrd, if_neg hk, hops, hf]
          rfl
        · rw [frameOut_ok x _ st1 w2 hops] at hf
          simp only [scanFiles, hrd, if_neg hk, hops, hf]
          exact ih (k + 1) st1 w2
            (by rw [scanOps_length _ _ _ _ _ _ _ _ _ hops]; exact hlen)

/-! ## Patches by files and the order of the files -/

/-- On a complete stream followed by more messages, the closure stops at the end of
the stream and leaves the rest of the wire. -/
theorem scanOps_stream (targetContainer : Container) (blockSize bigBlockSize : Int)
    (sourceFile : File) (rest : List Message) :
    ∀ (ops : List SyncOp) (st : Stats) (loc : FileScan), isOpStream ops = true →
      scanOps targetContainer blockSize bigBlockSize sourceFile
          (ops.map Message.op ++ rest) st loc
        = match scanOps targetContainer blockSize bigBlockSize sourceFile
            (ops.map Message.op) st loc with
          | Except.error e => Except.error e
          | Except.ok (s1, _) => Except.ok (s1, rest) := by
  intro ops
  induction ops with
  | nil =>
    intro st loc h
    simp [isOpStream] at h
  | cons o os ih =>
    intro st loc h
    cases os with
    | nil =>
      have hty : o.OpType = SyncOpType.HEY_YOU_DID_IT := by simpa [isOpStream] using h
      simp [scanOps, hty]
    | cons o2 os2 =>
      have h1 : o.OpType ≠ SyncOpType.HEY_YOU_DID_IT ∧ isOpStream (o2 :: os2) = true := by
        simpa [isOpStream] using h
      have ih2 := fun st loc => ih st loc h1.2
      rcases hty : o.OpType
      · rcases hb : doBlockRange targetContainer blockSize bigBlockSize sourceFile o st loc
          with e | ⟨st1, loc1⟩
        · simp only [List.map_cons, List.cons_append, scanOps, hty, hb]
        · simp only [List.map_cons, List.cons_append, scanOps, hty, hb]
          exact ih2 st1 loc1
      · simp only [List.map_cons, List.cons_append, scanOps, hty]
        exact ih2 _ _
      · exact absurd hty h1.1
      · simp only [List.map_cons, List.cons_append, scanOps, hty]
        exact ih2 _ _

/-- The loop over the source files, on the wire of a patch given by files with
complete streams, is the scan of the streams in turn. -/
theorem scanFiles_wireOf (targetContainer : Container) (blockSize bigBlockSize : Int) :
    ∀ (patch : List FileOps) (k : Nat) (st : Stats),
      (∀ p ∈ patch, isOpStream p.2 = true) →
      scanFiles targetContainer blockSize bigBlockSize k (patch.map Prod.fst) st (wireOf k patch)
        = scanStreams targetContainer blockSize bigBlockSize patch st := by
  intro patch
  induction patch with
  | nil =>
    intro k st _
    rfl
  | cons p rest ih =>
    intro k st h
    obtain ⟨sf, ops⟩ := p
    have hp : isOpStream ops = true := h (sf, ops) (List.mem_cons_self _ _)
    have hrest : ∀ q ∈ rest, isOpStream q.2 = true :=
      fun q hq => h q (List.mem_cons_of_mem _ hq)
    have hs := scanOps_stream targetContainer blockSize bigBlockSize sf
      (wireOf (k + 1) rest) ops st initScan hp
    simp only [List.map_cons, wireOf, scanFiles, readSyncHeader, ne_eq, not_true_eq_false,
      if_false, scanStreams, hs]
    rcases scanOps targetContainer blockSize bigBlockSize sf (ops.map Message.op) st initScan
      with e | ⟨s1, w1⟩
    · rfl
    · exact ih (k + 1) s1 hrest

theorem scanStreams_length (targetContainer : Container) (blockSize bigBlockSize : Int) :
    ∀ (patch : List FileOps) (st s : Stats) (w : List Message),
      scanStreams targetContainer blockSize bigBlockSize patch st = Except.ok (s, w) →
      s.requiredOldBlocks.length = st.requiredOldBlocks.length := by
  intro patch
  induction patch with
  | nil =>
    intro st s w h
    simp only [scanStreams, Except.ok.injEq, Prod.mk.injEq] at h
    rw [← h.1]
  | cons p rest ih =>
    intro st s w h
    obtain ⟨sf, ops⟩ := p
    simp only [scanStreams] at h
    split at h
    · cases h
    · rename_i s1 w1 hops
      rw [ih _ _ _ h, scanOps_length _ _ _ _ _ _ _ _ _ hops]

/-- One stream scanned from a state is the stream scanned from the initial state,
with the state added. -/
theorem scanOps_from_init (targetContainer : Container) (blockSize bigBlockSize : Int)
    (sourceFile : File) (wire : List Message) (st : Stats)
    (hlen : st.requiredOldBlocks.length = targetContainer.Files.length) (hst : st.inRange) :
    scanOps targetContainer blockSize bigBlockSize sourceFile wire st initScan
      = frameOut st (scanOps targetContainer blockSize bigBlockSize sourceFile wire
          (initStats targetContainer) initScan) := by
  have h := scanOps_frame targetContainer blockSize bigBlockSize sourceFile st wire
    (initStats targetContainer) initScan (by simp [initStats, hlen])
  rw [merge_initStats targetContainer st hlen hst] at h
  exact h

theorem zipWith_union_left_comm (l1 l2 l3 : List (Finset Int)) :
    List.zipWith (fun (u v : Finset Int) => u ∪ v) l1
        (List.zipWith (fun (u v : Finset Int) => u ∪ v) l2 l3)
      = List.zipWith (fun (u v : Finset Int) => u ∪ v) l2
        (List.zipWith (fun (u v : Finset Int) => u ∪ v) l1 l3) := by
  apply List.ext_getElem?
  intro n
  simp only [List.getElem?_zipWith]
  generalize l1[n]? = x
  generalize l2[n]? = y
  generalize l3[n]? = z
  cases x <;> cases y <;> cases z <;> simp [Finset.union_left_comm]

theorem merge_left_comm (a b c : Stats) : a.merge (b.merge c) = b.merge (a.merge c) := by
  simp only [Stats.merge, Stats.mk.injEq]
  exact ⟨wrap64_add_left_comm _ _ _, wrap64_add_left_comm _ _ _, wrap64_add_left_comm _ _ _,
    wrap64_add_left_comm _ _ _, wrap64_add_left_comm _ _ _, zipWith_union_left_comm _ _ _⟩

/-- The scan of the streams of a patch does not depend on the order of the files:
a permuted patch succeeds exactly when the patch does, with the same state. -/
theorem scanStreams_perm (targetContainer : Container) (blockSize bigBlockSize : Int)
    (patch1 patch2 : List FileOps) (hperm : patch1.Perm patch2) :
    ∀ (st : Stats), st.requiredOldBlocks.length = targetContainer.Files.length →
      st.inRange →
      ∀ (s : Stats) (w : List Message),
        scanStreams targetContainer blockSize bigBlockSize patch1 st = Except.ok (s, w)
          ↔ scanStreams targetContainer blockSize bigBlockSize patch2 st = Except.ok (s, w) := by
  induction hperm with
  | nil =>
    intro st _ _ s w
    exact Iff.rfl
  | cons p hp ih =>
    intro st hlen hst s w
    obtain ⟨sf, ops⟩ := p
    simp only [scanStreams]
    rcases hops : scanOps targetContainer blockSize bigBlockSize sf (ops.map Message.op)
      st initScan with e | ⟨s1, w1⟩
    · exact Iff.rfl
    · exact ih s1 (by rw [scanOps_length _ _ _ _ _ _ _ _ _ hops]; exact hlen)
        (scanOps_inRange _ _ _ _ _ _ _ _ _ hst hops) s w
  | swap p q l =>
    intro st hlen hst s w
    obtain ⟨sf, ops⟩ := p
    obtain ⟨sg, ops2⟩ := q
    have hp := fun (y : Stats) (hy : y.requiredOldBlocks.length = targetContainer.Files.length)
        (hr : y.inRange) =>
      scanOps_from_init targetContainer blockSize bigBlockSize sf (ops.map Message.op) y hy hr
    have hq := fun (y : Stats) (hy : y.requiredOldBlocks.length = targetContainer.Files.length)
        (hr : y.inRange) =>
      scanOps_from_init targetContainer blockSize bigBlockSize sg (ops2.map Message.op) y hy hr
    rcases hdp : scanOps targetContainer blockSize bigBlockSize sf (ops.map Message.op)
      (initStats targetContainer) initScan with ep | ⟨dp, wp⟩
    · rcases hdq : scanOps targetContainer blockSize bigBlockSize sg (ops2.map Message.op)
        (initStats targetContainer) initScan with eq | ⟨dq, wq⟩
      · simp only [scanStreams, hp st hlen hst, hq st hlen hst, hdp, hdq, frameOut]
        constructor <;> intro h <;> cases h
      · have hl : (dq.merge st).requiredOldBlocks.length = targetContainer.Files.length := by
          rw [merge_sets_length _ _ (by
            rw [scanOps_length _ _ _ _ _ _ _ _ _ hdq, hlen]; simp [initStats])]
          rw [scanOps_length _ _ _ _ _ _ _ _ _ hdq]
          simp [initStats]
        simp only [scanStreams, hp st hlen hst, hq st hlen hst, hdp, hdq, frameOut, hp _ hl (merge_inRange _ _)]
        constructor <;> intro h <;> cases h
    · have hlp : (dp.merge st).requiredOldBlocks.length = targetContainer.Files.length := by
        rw [merge_sets_length _ _ (by
          rw [scanOps_length _ _ _ _ _ _ _ _ _ hdp, hlen]; simp [initStats])]
        rw [scanOps_length _ _ _ _ _ _ _ _ _ hdp]
        simp [initStats]
      rcases hdq : scanOps targetContainer blockSize bigBlockSize sg (ops2.map Message.op)
        (initStats targetContainer) initScan with eq | ⟨dq, wq⟩
      · simp only [scanStreams, hp st hlen hst, hq st hlen hst, hdp, hdq, frameOut, hq _ hlp (merge_inRange _ _)]
        constructor <;> intro h <;> cases h
      · have hlq : (dq.merge st).requiredOldBlocks.length = targetContainer.Files.length := by
          rw [merge_sets_length _ _ (by
            rw [scanOps_length _ _ _ _ _ _ _ _ _ hdq, hlen]; simp [initStats])]
          rw [scanOps_length _ _ _ _ _ _ _ _ _ hdq]
          simp [initStats]
        simp only [scanStreams, hp st hlen hst, hq st hlen hst, hdp, hdq, frameOut, hq _ hlp (merge_inRange _ _), hp _ hlq (merge_inRange _ _)]
        rw [merge_left_comm dp dq st]
  | trans _ _ ih1 ih2 =>
    intro st hlen hst s w
    exact (ih1 st hlen hst s w).trans (ih2 st hlen hst s w)

/-! ## C7 -/

/-- C7: the required-block computation is order-independent and idempotent. For a
patch given by files (each source file with its complete operation stream), listing
the files in a permuted order gives the same outcome of the pre-pass followed by the
address loop: the same `requiredOldBlocks` and the same address map, or an early stop
in both orders. And running the loop over the source files a second time, on the
state that the pre-pass returned, succeeds and leaves every set of
`requiredOldBlocks`, hence the address map, as it was. -/
theorem analyse_order_independent (targetContainer : Container)
    (blockSize bigBlockSize : Int) (patch patch1 : List FileOps)
    (hstreams : ∀ p ∈ patch, isOpStream p.2 = true)
    (hperm : patch1.Perm patch) :
    analyse targetContainer (sourceOf patch1) blockSize bigBlockSize (wireOf 0 patch1)
        = analyse targetContainer (sourceOf patch) blockSize bigBlockSize (wireOf 0 patch)
      ∧ ∀ (sourceContainer : Container) (wire : List Message) (st : Stats) (w : List Message),
          prePass targetContainer sourceContainer blockSize bigBlockSize wire
              = Except.ok (st, w) →
          ∃ st2,
            scanFiles targetContainer blockSize bigBlockSize 0 sourceContainer.Files st wire
                = Except.ok (st2, w)
              ∧ st2.requiredOldBlocks = st.requiredOldBlocks
              ∧ assignAddresses targetContainer bigBlockSize st2.requiredOldBlocks
                  = assignAddresses targetContainer bigBlockSize st.requiredOldBlocks := by
  constructor
  · have hstreams1 : ∀ p ∈ patch1, isOpStream p.2 = true :=
      fun p hp => hstreams p (hperm.mem_iff.1 hp)
    have hinit : (initStats targetContainer).requiredOldBlocks.length
        = targetContainer.Files.length := by simp [initStats]
    have hiff := scanStreams_perm targetContainer blockSize bigBlockSize patch1 patch hperm
      (initStats targetContainer) hinit (initStats_inRange targetContainer)
    unfold analyse prePass sourceOf
    simp only
    rw [scanFiles_wireOf _ _ _ _ _ _ hstreams1, scanFiles_wireOf _ _ _ _ _ _ hstreams]
    rcases h2 : scanStreams targetContainer blockSize bigBlockSize patch
      (initStats targetContainer) with e | ⟨s, w⟩
    · rcases h1 : scanStreams targetContainer blockSize bigBlockSize patch1
        (initStats targetContainer) with e1 | ⟨s1, w1⟩
      · rfl
      · rw [(hiff s1 w1).1 h1] at h2
        cases h2
    · rw [(hiff s w).2 h2]
  · intro sourceContainer wire st w hrun
    have hlen := prePass_length _ _ _ _ _ _ _ hrun
    have hf := scanFiles_frame targetContainer blockSize bigBlockSize st sourceContainer.Files 0
      (initStats targetContainer) wire (by simp [initStats, hlen])
    unfold prePass at hrun
    have hst := scanFiles_inRange _ _ _ _ _ _ _ _ _ (initStats_inRange targetContainer) hrun
    rw [merge_initStats targetContainer st hlen hst] at hf
    rw [hrun] at hf
    refine ⟨st.merge st, hf, merge_self_sets st, ?_⟩
    rw [merge_self_sets st]

set_option maxRecDepth 100000 in
/-- C7 at a patch of two source files over one target file of five fetch blocks of
1 MiB: the first file moves fetch block 3, the second moves fetch block 1 and adds
three fresh bytes. Both orders give the sets `[{1, 3}]`. -/
theorem analyse_order_independent_witness :
    analyse ⟨[⟨"a.bin", 5242880⟩]⟩
        (sourceOf
          [(⟨"c.bin", 1048579⟩,
              [⟨SyncOpType.BLOCK_RANGE, 0, 16, 16, []⟩, ⟨SyncOpType.DATA, 0, 0, 0, [1, 2, 3]⟩,
               ⟨SyncOpType.HEY_YOU_DID_IT, 0, 0, 0, []⟩]),
           (⟨"b.bin", 1048576⟩,
              [⟨SyncOpType.BLOCK_RANGE, 0, 48, 16, []⟩,
               ⟨SyncOpType.HEY_YOU_DID_IT, 0, 0, 0, []⟩])])
        65536 1048576
        (wireOf 0
          [(⟨"c.bin", 1048579⟩,
              [⟨SyncOpType.BLOCK_RANGE, 0, 16, 16, []⟩, ⟨SyncOpType.DATA, 0, 0, 0, [1, 2, 3]⟩,
               ⟨SyncOpType.HEY_YOU_DID_IT, 0, 0, 0, []⟩]),
           (⟨"b.bin", 1048576⟩,
              [⟨SyncOpType.BLOCK_RANGE, 0, 48, 16, []⟩,
               ⟨SyncOpType.HEY_YOU_DID_IT, 0, 0, 0, []⟩])])
      = analyse ⟨[⟨"a.bin", 5242880⟩]⟩
        (sourceOf
          [(⟨"b.bin", 1048576⟩,
              [⟨SyncOpType.BLOCK_RANGE, 0, 48, 16, []⟩,
               ⟨SyncOpType.HEY_YOU_DID_IT, 0, 0, 0, []⟩]),
           (⟨"c.bin", 1048579⟩,
              [⟨SyncOpType.BLOCK_RANGE, 0, 16, 16, []⟩, ⟨SyncOpType.DATA, 0, 0, 0, [1, 2, 3]⟩,
               ⟨SyncOpType.HEY_YOU_DID_IT, 0, 0, 0, []⟩])])
        65536 1048576
        (wireOf 0
          [(⟨"b.bin", 1048576⟩,
              [⟨SyncOpType.BLOCK_RANGE, 0, 48, 16, []⟩,
               ⟨SyncOpType.HEY_YOU_DID_IT, 0, 0, 0, []⟩]),
           (⟨"c.bin", 1048579⟩,
              [⟨SyncOpType.BLOCK_RANGE, 0, 16, 16, []⟩, ⟨SyncOpType.DATA, 0, 0, 0, [1, 2, 3]⟩,
               ⟨SyncOpType.HEY_YOU_DID_IT, 0, 0, 0, []⟩])]) :=
  (analyse_order_independent ⟨[⟨"a.bin", 5242880⟩]⟩ 65536 1048576
    [(⟨"b.bin", 1048576⟩,
        [⟨SyncOpType.BLOCK_RANGE, 0, 48, 16, []⟩,
         ⟨SyncOpType.HEY_YOU_DID_IT, 0, 0, 0, []⟩]),
     (⟨"c.bin", 1048579⟩,
        [⟨SyncOpType.BLOCK_RANGE, 0, 16, 16, []⟩, ⟨SyncOpType.DATA, 0, 0, 0, [1, 2, 3]⟩,
         ⟨SyncOpType.HEY_YOU_DID_IT, 0, 0, 0, []⟩])]
    [(⟨"c.bin", 1048579⟩,
        [⟨SyncOpType.BLOCK_RANGE, 0, 16, 16, []⟩, ⟨SyncOpType.DATA, 0, 0, 0, [1, 2, 3]⟩,
         ⟨SyncOpType.HEY_YOU_DID_IT, 0, 0, 0, []⟩]),
     (⟨"b.bin", 1048576⟩,
        [⟨SyncOpType.BLOCK_RANGE, 0, 48, 16, []⟩,
         ⟨SyncOpType.HEY_YOU_DID_IT, 0, 0, 0, []⟩])]
    (by decide) (List.Perm.swap _ _ _)).1

set_option maxRecDepth 100000 in
/-- The sets of that patch, in both orders: fetch blocks 1 and 3 of the target
file. -/
theorem analyse_example :
    (analyse ⟨[⟨"a.bin", 5242880⟩]⟩
        (sourceOf
          [(⟨"b.bin", 1048576⟩,
              [⟨SyncOpType.BLOCK_RANGE, 0, 48, 16, []⟩,
               ⟨SyncOpType.HEY_YOU_DID_IT, 0, 0, 0, []⟩]),
           (⟨"c.bin", 1048579⟩,
              [⟨SyncOpType.BLOCK_RANGE, 0, 16, 16, []⟩, ⟨SyncOpType.DATA, 0, 0, 0, [1, 2, 3]⟩,
               ⟨SyncOpType.HEY_YOU_DID_IT, 0, 0, 0, []⟩])])
        65536 1048576
        (wireOf 0
          [(⟨"b.bin", 1048576⟩,
              [⟨SyncOpType.BLOCK_RANGE, 0, 48, 16, []⟩,
               ⟨SyncOpType.HEY_YOU_DID_IT, 0, 0, 0, []⟩]),
           (⟨"c.bin", 1048579⟩,
              [⟨SyncOpType.BLOCK_RANGE, 0, 16, 16, []⟩, ⟨SyncOpType.DATA, 0, 0, 0, [1, 2, 3]⟩,
               ⟨SyncOpType.HEY_YOU_DID_IT, 0, 0, 0, []⟩])])).map Prod.fst
      = some [{1, 3}] := by
  decide

end Butler
